import Mathlib

/-!
# Verification of the hierarchical task manager (src/main.py)

This file gives a shallow embedding of the task-manager core: the
`Tareas`/`Categoria` data model, the registry (`ManejadorTareas`), the
undo/redo history engine and the per-category urgent FIFO queue, together
with proofs of the specified properties.

Modelling notes (faithful to the Python source):

* Python task objects are mutable and aliased: a history record for
  `modificar` holds a reference to the *live* task object, and `deshacer` /
  `rehacer` mutate that object wherever it currently is (possibly outside
  every task list).  We therefore model the object store of normal tasks as
  an explicit heap `tareasVivas : List Tarea` (one entry per task object
  ever created by `agregarTarea`, keyed by its `id`, which is fresh at
  creation because the shared counter only grows).  A category's task list
  stores task ids pointing into this heap, and a history record stores the
  ids of the task and category objects it references, which identify those
  objects uniquely in every reachable state.
* Urgent tasks are never referenced by history records and never mutated,
  so the urgent queue stores task values directly; dequeuing drops the
  value, exactly as the Python object becomes unreachable.
* Python's `list.remove(x)` raises `ValueError` when `x` is absent; an
  unhandled exception (which kills the interactive process) is modelled by
  the `none` result of an operation.
* `idsAsignados` is a ghost history variable (not a field of the Python
  class): it records, in order, every task id handed out by the shared
  counter (`agregarTarea` and `agregarTareaUrgente`).  It exists only so
  that allocation-order properties can be stated; no operation reads it.
-/

/-- A task (`Tareas` in the source): id, title, description, priority and
due date.  Dates are modelled as natural numbers (only their ordering and
equality matter to the core). -/
structure Tarea where
  id : Nat
  titulo : String
  descripcion : String
  prioridad : Nat
  fecha_vencimiento : Nat
deriving DecidableEq, Repr

/-- A category (`Categoria` in the source): id, name, subcategories, the
urgent-task FIFO queue (front = head of the list) and the list of direct
task ids (pointing into the registry's task heap). -/
inductive Categoria : Type where
  | mk (id : Nat) (nombre : String) (subcategorias : List Categoria)
       (tareasUrgentes : List Tarea) (tareas : List Nat)

mutual

/-- Structural equality test for categories (needed because automatic
derivation does not handle the nested occurrence of `List Categoria`). -/
def beqCat : Categoria → Categoria → Bool
  | .mk i1 n1 s1 u1 t1, .mk i2 n2 s2 u2 t2 =>
    i1 == i2 && n1 == n2 && beqCatLista s1 s2 && u1 == u2 && t1 == t2

/-- Pointwise structural equality test for lists of categories. -/
def beqCatLista : List Categoria → List Categoria → Bool
  | [], [] => true
  | c :: cs, d :: ds => beqCat c d && beqCatLista cs ds
  | _, _ => false

end

mutual

theorem beqCat_refl : ∀ c : Categoria, beqCat c c = true
  | .mk i n s u t => by
    simp [beqCat, beqCatLista_refl s]

theorem beqCatLista_refl : ∀ cs : List Categoria, beqCatLista cs cs = true
  | [] => by simp [beqCatLista]
  | c :: cs => by
    simp [beqCatLista, beqCat_refl c, beqCatLista_refl cs]

end

mutual

theorem eq_of_beqCat : ∀ {c d : Categoria}, beqCat c d = true → c = d
  | .mk i1 n1 s1 u1 t1, .mk i2 n2 s2 u2 t2, h => by
    simp only [beqCat, Bool.and_eq_true, beq_iff_eq] at h
    obtain ⟨⟨⟨⟨h1, h2⟩, h3⟩, h4⟩, h5⟩ := h
    subst h1; subst h2; subst h4; subst h5
    rw [eq_of_beqCatLista h3]

theorem eq_of_beqCatLista : ∀ {cs ds : List Categoria},
    beqCatLista cs ds = true → cs = ds
  | [], [], _ => rfl
  | c :: cs, d :: ds, h => by
    simp only [beqCatLista, Bool.and_eq_true] at h
    rw [eq_of_beqCat h.1, eq_of_beqCatLista h.2]

end

instance : DecidableEq Categoria := fun a b =>
  if h : beqCat a b then .isTrue (eq_of_beqCat h)
  else .isFalse (fun he => h (he ▸ beqCat_refl a))

namespace Categoria

def id : Categoria → Nat
  | .mk i _ _ _ _ => i

def nombre : Categoria → String
  | .mk _ n _ _ _ => n

def subcategorias : Categoria → List Categoria
  | .mk _ _ s _ _ => s

def tareasUrgentes : Categoria → List Tarea
  | .mk _ _ _ u _ => u

def tareas : Categoria → List Nat
  | .mk _ _ _ _ t => t

/-- Replace the task list of a category (models assigning to the aliased
object's `tareas`). -/
def conTareas : Categoria → List Nat → Categoria
  | .mk i n s u _, t => .mk i n s u t

/-- Replace the urgent queue of a category. -/
def conCola : Categoria → List Tarea → Categoria
  | .mk i n s _ t, u => .mk i n s u t

/-- Replace the subcategory list of a category. -/
def conSubcategorias : Categoria → List Categoria → Categoria
  | .mk i n _ u t, s => .mk i n s u t

end Categoria

/-- The match test of `encontrarCategoria`: the Python condition
`categoria.id == id or categoria.nombre == nombre`, where either search key
may be absent (`None`). -/
def coincide (i : Option Nat) (n : Option String) (c : Categoria) : Bool :=
  i == some c.id || n == some c.nombre

mutual

/-- `encontrarCategoriaEnSubcategorias` of the source: depth-first
pre-order search of one subtree for the first category matching by id or by
name. -/
def encontrarCategoriaEnSubcategorias (i : Option Nat) (n : Option String) :
    Categoria → Option Categoria
  | .mk cid nom subs uq ts =>
    if coincide i n (.mk cid nom subs uq ts) then some (.mk cid nom subs uq ts)
    else encontrarEnLista i n subs

/-- Search a list of sibling categories left to right, each with its whole
subtree, for the first match. -/
def encontrarEnLista (i : Option Nat) (n : Option String) :
    List Categoria → Option Categoria
  | [] => none
  | c :: cs =>
    match encontrarCategoriaEnSubcategorias i n c with
    | some r => some r
    | none => encontrarEnLista i n cs

end

/-- `encontrarCategoria` of the source.  The Python top-level loop checks
each root and then recurses into its subcategories with
`encontrarCategoriaEnSubcategorias`, which is exactly the left-to-right
search of each root's subtree. -/
def encontrarCategoria (i : Option Nat) (n : Option String)
    (cats : List Categoria) : Option Categoria :=
  encontrarEnLista i n cats

mutual

/-- Replace the first category (in the search order of
`encontrarCategoria`) matching by id or name with `c'`.  This models the
Python pattern of finding a category object and then mutating it in place:
the mutated object is precisely the first match of the search.  The `Bool`
reports whether a match was found (and hence replaced). -/
def reemplazarCat (i : Option Nat) (n : Option String) (c' : Categoria) :
    Categoria → Categoria × Bool
  | .mk cid nom subs uq ts =>
    if coincide i n (.mk cid nom subs uq ts) then (c', true)
    else
      (.mk cid nom (reemplazarLista i n c' subs).1 uq ts,
       (reemplazarLista i n c' subs).2)

/-- List version of `reemplazarCat`: replace in the first subtree that
contains a match. -/
def reemplazarLista (i : Option Nat) (n : Option String) (c' : Categoria) :
    List Categoria → List Categoria × Bool
  | [] => ([], false)
  | c :: cs =>
    if (reemplazarCat i n c' c).2 then ((reemplazarCat i n c' c).1 :: cs, true)
    else (c :: (reemplazarLista i n c' cs).1, (reemplazarLista i n c' cs).2)

end

mutual

/-- Depth-first pre-order flattening of one category's subtree (the node
itself first, then its subcategories' subtrees left to right).  This is the
visit order of `encontrarCategoria`. -/
def preordenCat : Categoria → List Categoria
  | .mk cid nom subs uq ts => .mk cid nom subs uq ts :: preordenLista subs

/-- Depth-first pre-order flattening of a forest. -/
def preordenLista : List Categoria → List Categoria
  | [] => []
  | c :: cs => preordenCat c ++ preordenLista cs

end

/-- Pre-order flattening of the registry's forest of root categories. -/
def preorden (cats : List Categoria) : List Categoria :=
  preordenLista cats

/-- Look up a live task object by id in the task heap (first match; ids in
the heap are pairwise distinct in every reachable state because each entry
is created with a fresh counter value). -/
def buscarTarea (tid : Nat) (ts : List Tarea) : Option Tarea :=
  ts.find? (fun t => t.id == tid)

/-- Mutate the live task object with the given id (first match) in the
task heap. -/
def actualizarTarea (tid : Nat) (f : Tarea → Tarea) : List Tarea → List Tarea
  | [] => []
  | t :: ts => if t.id == tid then f t :: ts else t :: actualizarTarea tid f ts

/-- A history record (the tuples pushed on `historial_acciones`).  Python
records hold references to the live task and category objects; the model
stores their ids, which identify them uniquely in every reachable state.
The `modificar` record additionally holds `tarea_anterior`, the snapshot
copy of the task's fields taken before the modification. -/
inductive Accion where
  | agregar (tid : Nat) (cid : Nat)
  | eliminar (tid : Nat) (cid : Nat)
  | modificar (anterior : Tarea) (tid : Nat) (cid : Nat)
deriving DecidableEq, Repr

/-- The outcome reported by one operation: success (with the processed
task, for `procesarTareaUrgente`) or one of the printed error messages. -/
inductive Salida where
  | ok
  | okTarea (t : Tarea)
  | errCategoriaYaExiste
  | errCategoriaNoExiste
  | errTareaNoExiste
  | nadaQueDeshacer
  | nadaQueRehacer
  | sinTareasUrgentes
deriving DecidableEq, Repr

/-- The state of a `ManejadorTareas` instance.  `tareasVivas` is the heap
of task objects created by `agregarTarea` (see the module comment) and
`idsAsignados` is the ghost list of task ids handed out by the shared
counter, in allocation order. -/
structure Manejador where
  categorias : List Categoria
  idCategoria : Nat
  idTarea : Nat
  historial_acciones : List Accion
  historial_deshacer : List Accion
  tareasVivas : List Tarea
  idsAsignados : List Nat
deriving DecidableEq

/-- The freshly constructed manager (`ManejadorTareas.__init__`). -/
def inicial : Manejador :=
  { categorias := [], idCategoria := 1, idTarea := 1,
    historial_acciones := [], historial_deshacer := [],
    tareasVivas := [], idsAsignados := [] }

/-- `agregarCategoria` of the source: refuse the name if any category in
the whole forest already has it, else append a fresh root category. -/
def agregarCategoria (nombre : String) (m : Manejador) : Salida × Manejador :=
  match encontrarCategoria none (some nombre) m.categorias with
  | some _ => (.errCategoriaYaExiste, m)
  | none =>
    (.ok, { m with
      categorias := m.categorias ++ [.mk m.idCategoria nombre [] [] []],
      idCategoria := m.idCategoria + 1 })

/-- `agregarSubcategoria` of the source: resolve the parent by name and
append a fresh child category to it; no name-collision check. -/
def agregarSubcategoria (nombre nombreCategoria : String) (m : Manejador) :
    Salida × Manejador :=
  match encontrarCategoria none (some nombreCategoria) m.categorias with
  | none => (.errCategoriaNoExiste, m)
  | some c =>
    (.ok, { m with
      categorias := (reemplazarLista none (some nombreCategoria)
        (c.conSubcategorias (c.subcategorias ++ [.mk m.idCategoria nombre [] [] []]))
        m.categorias).1,
      idCategoria := m.idCategoria + 1 })

/-- `agregarTarea` of the source: resolve the category by name, create a
task with the next id, append it to the category's task list, bump the
counter and push an `agregar` record.  The redo stack is not touched. -/
def agregarTarea (titulo descripcion : String) (prioridad fecha : Nat)
    (nombreCategoria : String) (m : Manejador) : Salida × Manejador :=
  match encontrarCategoria none (some nombreCategoria) m.categorias with
  | none => (.errCategoriaNoExiste, m)
  | some c =>
    let t : Tarea := ⟨m.idTarea, titulo, descripcion, prioridad, fecha⟩
    (.ok, { m with
      categorias := (reemplazarLista none (some nombreCategoria)
        (c.conTareas (c.tareas ++ [t.id])) m.categorias).1,
      tareasVivas := m.tareasVivas ++ [t],
      idTarea := m.idTarea + 1,
      historial_acciones := .agregar t.id c.id :: m.historial_acciones,
      idsAsignados := m.idsAsignados ++ [m.idTarea] })

/-- `eliminarTarea` of the source: resolve the category, find the task by
id in its task list, remove it (first occurrence) and push an `eliminar`
record. -/
def eliminarTarea (idTarea : Nat) (nombreCategoria : String) (m : Manejador) :
    Salida × Manejador :=
  match encontrarCategoria none (some nombreCategoria) m.categorias with
  | none => (.errCategoriaNoExiste, m)
  | some c =>
    if idTarea ∈ c.tareas then
      (.ok, { m with
        categorias := (reemplazarLista none (some nombreCategoria)
          (c.conTareas (c.tareas.erase idTarea)) m.categorias).1,
        historial_acciones := .eliminar idTarea c.id :: m.historial_acciones })
    else (.errTareaNoExiste, m)

/-- `modificarTarea` of the source: resolve the category, find the task by
id in its task list, snapshot its current fields (`tarea_anterior`),
overwrite the live object's four mutable fields, and push a `modificar`
record.  The `none` case of the heap lookup is unreachable (every id in a
task list belongs to a live task object) and stands for the impossibility
of a dangling Python reference. -/
def modificarTarea (idTarea : Nat) (titulo descripcion : String)
    (prioridad fecha : Nat) (nombreCategoria : String) (m : Manejador) :
    Option (Salida × Manejador) :=
  match encontrarCategoria none (some nombreCategoria) m.categorias with
  | none => some (.errCategoriaNoExiste, m)
  | some c =>
    if idTarea ∈ c.tareas then
      match buscarTarea idTarea m.tareasVivas with
      | none => none
      | some anterior =>
        some (.ok, { m with
          tareasVivas := actualizarTarea idTarea
            (fun u => { u with titulo := titulo, descripcion := descripcion,
                               prioridad := prioridad, fecha_vencimiento := fecha })
            m.tareasVivas,
          historial_acciones := .modificar anterior idTarea c.id :: m.historial_acciones })
    else some (.errTareaNoExiste, m)

/-- `deshacer` of the source: pop the newest record, apply its inverse
effect, and push the same record on the redo stack.  The overall `none`
result models the uncaught `ValueError` that Python's `list.remove` raises
when an `agregar` record's task is no longer in the recorded category's
task list (a stale record); the category lookup by id cannot fail in a
reachable state because categories are never deleted. -/
def deshacer (m : Manejador) : Option (Salida × Manejador) :=
  match m.historial_acciones with
  | [] => some (.nadaQueDeshacer, m)
  | a :: resto =>
    match a with
    | .agregar tid cid =>
      match encontrarCategoria (some cid) none m.categorias with
      | none => none
      | some c =>
        if tid ∈ c.tareas then
          some (.ok, { m with
            categorias := (reemplazarLista (some cid) none
              (c.conTareas (c.tareas.erase tid)) m.categorias).1,
            historial_acciones := resto,
            historial_deshacer := a :: m.historial_deshacer })
        else none
    | .eliminar tid cid =>
      match encontrarCategoria (some cid) none m.categorias with
      | none => none
      | some c =>
        some (.ok, { m with
          categorias := (reemplazarLista (some cid) none
            (c.conTareas (c.tareas ++ [tid])) m.categorias).1,
          historial_acciones := resto,
          historial_deshacer := a :: m.historial_deshacer })
    | .modificar anterior tid _ =>
      some (.ok, { m with
        tareasVivas := actualizarTarea tid
          (fun u => { u with titulo := anterior.titulo,
                             descripcion := anterior.descripcion,
                             prioridad := anterior.prioridad,
                             fecha_vencimiento := anterior.fecha_vencimiento })
          m.tareasVivas,
        historial_acciones := resto,
        historial_deshacer := a :: m.historial_deshacer })

/-- `rehacer` of the source: pop the newest undone record, re-apply its
forward effect, and push it back on the undo stack.  Note the `modificar`
branch: the source re-applies the fields of `tarea_anterior` (the *before*
snapshot), exactly as in `deshacer` — it does not restore the
post-modification values.  `none` models the uncaught `ValueError` of
`list.remove` on a stale `eliminar` record. -/
def rehacer (m : Manejador) : Option (Salida × Manejador) :=
  match m.historial_deshacer with
  | [] => some (.nadaQueRehacer, m)
  | a :: resto =>
    match a with
    | .agregar tid cid =>
      match encontrarCategoria (some cid) none m.categorias with
      | none => none
      | some c =>
        some (.ok, { m with
          categorias := (reemplazarLista (some cid) none
            (c.conTareas (c.tareas ++ [tid])) m.categorias).1,
          historial_deshacer := resto,
          historial_acciones := a :: m.historial_acciones })
    | .eliminar tid cid =>
      match encontrarCategoria (some cid) none m.categorias with
      | none => none
      | some c =>
        if tid ∈ c.tareas then
          some (.ok, { m with
            categorias := (reemplazarLista (some cid) none
              (c.conTareas (c.tareas.erase tid)) m.categorias).1,
            historial_deshacer := resto,
            historial_acciones := a :: m.historial_acciones })
        else none
    | .modificar anterior tid _ =>
      some (.ok, { m with
        tareasVivas := actualizarTarea tid
          (fun u => { u with titulo := anterior.titulo,
                             descripcion := anterior.descripcion,
                             prioridad := anterior.prioridad,
                             fecha_vencimiento := anterior.fecha_vencimiento })
          m.tareasVivas,
        historial_deshacer := resto,
        historial_acciones := a :: m.historial_acciones })

/-- `agregarTareaUrgente` of the source: resolve the category by name,
create a task with the next id from the shared counter and append it to
the category's urgent FIFO queue.  Not recorded in the history. -/
def agregarTareaUrgente (titulo descripcion : String) (prioridad fecha : Nat)
    (nombreCategoria : String) (m : Manejador) : Salida × Manejador :=
  match encontrarCategoria none (some nombreCategoria) m.categorias with
  | none => (.errCategoriaNoExiste, m)
  | some c =>
    let t : Tarea := ⟨m.idTarea, titulo, descripcion, prioridad, fecha⟩
    (.ok, { m with
      categorias := (reemplazarLista none (some nombreCategoria)
        (c.conCola (c.tareasUrgentes ++ [t])) m.categorias).1,
      idTarea := m.idTarea + 1,
      idsAsignados := m.idsAsignados ++ [m.idTarea] })

/-- `procesarTareaUrgente` of the source: resolve the category by name and
remove and return the head of its urgent queue (strict FIFO); report when
the queue is empty. -/
def procesarTareaUrgente (nombreCategoria : String) (m : Manejador) :
    Salida × Manejador :=
  match encontrarCategoria none (some nombreCategoria) m.categorias with
  | none => (.errCategoriaNoExiste, m)
  | some c =>
    match c.tareasUrgentes with
    | [] => (.sinTareasUrgentes, m)
    | t :: resto =>
      (.okTarea t, { m with
        categorias := (reemplazarLista none (some nombreCategoria)
          (c.conCola resto) m.categorias).1 })

/-- One invocation of a core operation, with its arguments. -/
inductive Op where
  | agregarCategoria (nombre : String)
  | agregarSubcategoria (nombre nombreCategoria : String)
  | agregarTarea (titulo descripcion : String) (prioridad fecha : Nat)
      (nombreCategoria : String)
  | eliminarTarea (idTarea : Nat) (nombreCategoria : String)
  | modificarTarea (idTarea : Nat) (titulo descripcion : String)
      (prioridad fecha : Nat) (nombreCategoria : String)
  | deshacer
  | rehacer
  | agregarTareaUrgente (titulo descripcion : String) (prioridad fecha : Nat)
      (nombreCategoria : String)
  | procesarTareaUrgente (nombreCategoria : String)
deriving DecidableEq, Repr

/-- Dispatch one operation.  `none` is an unhandled exception (the process
aborts). -/
def paso (op : Op) (m : Manejador) : Option (Salida × Manejador) :=
  match op with
  | .agregarCategoria n => some (agregarCategoria n m)
  | .agregarSubcategoria n nc => some (agregarSubcategoria n nc m)
  | .agregarTarea t d p f nc => some (agregarTarea t d p f nc m)
  | .eliminarTarea i nc => some (eliminarTarea i nc m)
  | .modificarTarea i t d p f nc => modificarTarea i t d p f nc m
  | .deshacer => deshacer m
  | .rehacer => rehacer m
  | .agregarTareaUrgente t d p f nc => some (agregarTareaUrgente t d p f nc m)
  | .procesarTareaUrgente nc => some (procesarTareaUrgente nc m)

/-- Run a sequence of operations from a state; `none` as soon as one of
them raises. -/
def correr : List Op → Manejador → Option Manejador
  | [], m => some m
  | op :: ops, m =>
    match paso op m with
    | none => none
    | some (_, m') => correr ops m'

/-- The states a `ManejadorTareas` instance can actually be in: reachable
from the freshly constructed manager by core operations that did not
raise. -/
inductive Alcanzable : Manejador → Prop where
  | inicial : Alcanzable inicial
  | paso (op : Op) (s : Salida) (m m' : Manejador) :
      Alcanzable m → paso op m = some (s, m') → Alcanzable m'

/-- The undo/redo operations. -/
def esHistOp : Op → Bool
  | .deshacer => true
  | .rehacer => true
  | _ => false

/-- The three task-mutating operations recorded in the history. -/
def esMutadoraTarea : Op → Bool
  | .agregarTarea _ _ _ _ _ => true
  | .eliminarTarea _ _ => true
  | .modificarTarea _ _ _ _ _ _ => true
  | _ => false

/-- The task list of the category a name currently resolves to. -/
def tareasPorNombre (nombre : String) (cats : List Categoria) : Option (List Nat) :=
  (encontrarCategoria none (some nombre) cats).map Categoria.tareas

/-- The urgent queue of the category a name currently resolves to. -/
def colaPorNombre (nombre : String) (cats : List Categoria) : Option (List Tarea) :=
  (encontrarCategoria none (some nombre) cats).map Categoria.tareasUrgentes

namespace Categoria

@[simp] theorem id_mk (i : Nat) (n : String) (s : List Categoria)
    (u : List Tarea) (t : List Nat) : (Categoria.mk i n s u t).id = i := rfl

@[simp] theorem nombre_mk (i : Nat) (n : String) (s : List Categoria)
    (u : List Tarea) (t : List Nat) : (Categoria.mk i n s u t).nombre = n := rfl

@[simp] theorem subcategorias_mk (i : Nat) (n : String) (s : List Categoria)
    (u : List Tarea) (t : List Nat) : (Categoria.mk i n s u t).subcategorias = s := rfl

@[simp] theorem tareasUrgentes_mk (i : Nat) (n : String) (s : List Categoria)
    (u : List Tarea) (t : List Nat) : (Categoria.mk i n s u t).tareasUrgentes = u := rfl

@[simp] theorem tareas_mk (i : Nat) (n : String) (s : List Categoria)
    (u : List Tarea) (t : List Nat) : (Categoria.mk i n s u t).tareas = t := rfl

@[simp] theorem id_conTareas (c : Categoria) (t : List Nat) :
    (c.conTareas t).id = c.id := by cases c; rfl

@[simp] theorem nombre_conTareas (c : Categoria) (t : List Nat) :
    (c.conTareas t).nombre = c.nombre := by cases c; rfl

@[simp] theorem subcategorias_conTareas (c : Categoria) (t : List Nat) :
    (c.conTareas t).subcategorias = c.subcategorias := by cases c; rfl

@[simp] theorem tareasUrgentes_conTareas (c : Categoria) (t : List Nat) :
    (c.conTareas t).tareasUrgentes = c.tareasUrgentes := by cases c; rfl

@[simp] theorem tareas_conTareas (c : Categoria) (t : List Nat) :
    (c.conTareas t).tareas = t := by cases c; rfl

@[simp] theorem id_conCola (c : Categoria) (u : List Tarea) :
    (c.conCola u).id = c.id := by cases c; rfl

@[simp] theorem nombre_conCola (c : Categoria) (u : List Tarea) :
    (c.conCola u).nombre = c.nombre := by cases c; rfl

@[simp] theorem subcategorias_conCola (c : Categoria) (u : List Tarea) :
    (c.conCola u).subcategorias = c.subcategorias := by cases c; rfl

@[simp] theorem tareasUrgentes_conCola (c : Categoria) (u : List Tarea) :
    (c.conCola u).tareasUrgentes = u := by cases c; rfl

@[simp] theorem tareas_conCola (c : Categoria) (u : List Tarea) :
    (c.conCola u).tareas = c.tareas := by cases c; rfl

@[simp] theorem id_conSubcategorias (c : Categoria) (s : List Categoria) :
    (c.conSubcategorias s).id = c.id := by cases c; rfl

@[simp] theorem nombre_conSubcategorias (c : Categoria) (s : List Categoria) :
    (c.conSubcategorias s).nombre = c.nombre := by cases c; rfl

@[simp] theorem subcategorias_conSubcategorias (c : Categoria) (s : List Categoria) :
    (c.conSubcategorias s).subcategorias = s := by cases c; rfl

@[simp] theorem tareasUrgentes_conSubcategorias (c : Categoria) (s : List Categoria) :
    (c.conSubcategorias s).tareasUrgentes = c.tareasUrgentes := by cases c; rfl

@[simp] theorem tareas_conSubcategorias (c : Categoria) (s : List Categoria) :
    (c.conSubcategorias s).tareas = c.tareas := by cases c; rfl

theorem conTareas_tareas (c : Categoria) : c.conTareas c.tareas = c := by
  cases c; rfl

end Categoria

/-- `coincide` only looks at the id and the name. -/
theorem coincide_conTareas (i : Option Nat) (n : Option String) (c : Categoria)
    (t : List Nat) : coincide i n (c.conTareas t) = coincide i n c := by
  simp [coincide]

theorem coincide_conCola (i : Option Nat) (n : Option String) (c : Categoria)
    (u : List Tarea) : coincide i n (c.conCola u) = coincide i n c := by
  simp [coincide]

theorem coincide_conSubcategorias (i : Option Nat) (n : Option String)
    (c : Categoria) (s : List Categoria) :
    coincide i n (c.conSubcategorias s) = coincide i n c := by
  simp [coincide]

theorem preordenCat_def (c : Categoria) :
    preordenCat c = c :: preordenLista c.subcategorias := by
  cases c; rfl

@[simp] theorem preordenLista_nil : preordenLista [] = [] := rfl

theorem preordenLista_cons (c : Categoria) (cs : List Categoria) :
    preordenLista (c :: cs) = preordenCat c ++ preordenLista cs := rfl

theorem preordenLista_append (l1 l2 : List Categoria) :
    preordenLista (l1 ++ l2) = preordenLista l1 ++ preordenLista l2 := by
  induction l1 with
  | nil => rfl
  | cons c cs ih => simp [preordenLista_cons, ih]

mutual

/-- The subtree search visits nodes in depth-first pre-order and returns
the first match. -/
theorem encontrarCat_eq_find (i : Option Nat) (n : Option String) :
    ∀ d : Categoria,
      encontrarCategoriaEnSubcategorias i n d = (preordenCat d).find? (coincide i n)
  | .mk cid nom subs uq ts => by
    rw [encontrarCategoriaEnSubcategorias, preordenCat]
    by_cases hc : coincide i n (.mk cid nom subs uq ts)
    · rw [if_pos hc, List.find?_cons_of_pos _ hc]
    · rw [if_neg hc, List.find?_cons_of_neg _ hc, encontrarLista_eq_find i n subs]

/-- The forest search visits nodes in depth-first pre-order and returns
the first match. -/
theorem encontrarLista_eq_find (i : Option Nat) (n : Option String) :
    ∀ cs : List Categoria,
      encontrarEnLista i n cs = (preordenLista cs).find? (coincide i n)
  | [] => rfl
  | c :: cs => by
    rw [encontrarEnLista, preordenLista_cons, List.find?_append,
      ← encontrarCat_eq_find i n c, ← encontrarLista_eq_find i n cs]
    cases encontrarCategoriaEnSubcategorias i n c <;> rfl

end

/-- The data of a category that survives a replacement in one of its
subtrees: everything except the subcategory list. -/
def perfil (c : Categoria) : Nat × String × List Tarea × List Nat :=
  (c.id, c.nombre, c.tareasUrgentes, c.tareas)

theorem coincide_de_perfil (i : Option Nat) (n : Option String)
    {c1 c2 : Categoria} (hp : perfil c1 = perfil c2) :
    coincide i n c1 = coincide i n c2 := by
  simp only [perfil, Prod.mk.injEq] at hp
  simp [coincide, hp.1, hp.2.1]

mutual

/-- The replacement found a match exactly when the search does. -/
theorem reemplazarCat_flag (i : Option Nat) (n : Option String) (c' : Categoria) :
    ∀ d : Categoria,
      (reemplazarCat i n c' d).2 = (encontrarCategoriaEnSubcategorias i n d).isSome
  | .mk cid nom subs uq ts => by
    rw [reemplazarCat, encontrarCategoriaEnSubcategorias]
    by_cases hc : coincide i n (.mk cid nom subs uq ts)
    · rw [if_pos hc, if_pos hc]; rfl
    · rw [if_neg hc, if_neg hc]; exact reemplazarLista_flag i n c' subs

/-- The list replacement found a match exactly when the list search does. -/
theorem reemplazarLista_flag (i : Option Nat) (n : Option String) (c' : Categoria) :
    ∀ cs : List Categoria,
      (reemplazarLista i n c' cs).2 = (encontrarEnLista i n cs).isSome
  | [] => rfl
  | c :: cs => by
    rw [reemplazarLista, encontrarEnLista, reemplazarCat_flag i n c' c]
    cases h : encontrarCategoriaEnSubcategorias i n c
    · simpa using reemplazarLista_flag i n c' cs
    · rfl

end

mutual

/-- When the search misses, the replacement changes nothing. -/
theorem reemplazarCat_id_de_none (i : Option Nat) (n : Option String) (c' : Categoria) :
    ∀ d : Categoria, encontrarCategoriaEnSubcategorias i n d = none →
      (reemplazarCat i n c' d).1 = d
  | .mk cid nom subs uq ts, h => by
    rw [encontrarCategoriaEnSubcategorias] at h
    rw [reemplazarCat]
    by_cases hc : coincide i n (.mk cid nom subs uq ts)
    · rw [if_pos hc] at h; exact absurd h (by simp)
    · rw [if_neg hc] at h
      rw [if_neg hc]
      simp [reemplazarLista_id_de_none i n c' subs h]

/-- When the list search misses, the replacement changes nothing. -/
theorem reemplazarLista_id_de_none (i : Option Nat) (n : Option String) (c' : Categoria) :
    ∀ cs : List Categoria, encontrarEnLista i n cs = none →
      (reemplazarLista i n c' cs).1 = cs
  | [], _ => rfl
  | c :: cs, h => by
    cases h0 : encontrarCategoriaEnSubcategorias i n c with
    | some r => rw [encontrarEnLista, h0] at h; exact absurd h (by simp)
    | none =>
      rw [encontrarEnLista, h0] at h
      rw [reemplazarLista, reemplazarCat_flag i n c' c, h0]
      simp [reemplazarLista_id_de_none i n c' cs h]

end

mutual

/-- Decomposition of a subtree replacement: the pre-order flattening of
the subtree splits as a prefix (nodes visited and rejected before the
match, whose profiles the replacement keeps), the matched node's subtree,
and an untouched remainder. -/
theorem reemplazarCat_descomp (i : Option Nat) (n : Option String) (c' : Categoria) :
    ∀ (d c : Categoria), encontrarCategoriaEnSubcategorias i n d = some c →
      ∃ pre pre' suf,
        preordenCat d = pre ++ preordenCat c ++ suf ∧
        preordenCat (reemplazarCat i n c' d).1 = pre' ++ preordenCat c' ++ suf ∧
        pre'.map perfil = pre.map perfil ∧
        ∀ y ∈ pre, coincide i n y = false
  | .mk cid nom subs uq ts, c, h => by
    rw [encontrarCategoriaEnSubcategorias] at h
    by_cases hc : coincide i n (.mk cid nom subs uq ts)
    · rw [if_pos hc] at h
      have hdc : Categoria.mk cid nom subs uq ts = c := Option.some_inj.mp h
      refine ⟨[], [], [], by rw [hdc]; simp, ?_, rfl, by simp⟩
      have hr : (reemplazarCat i n c' (.mk cid nom subs uq ts)).1 = c' := by
        rw [reemplazarCat, if_pos hc]
      rw [hr]; simp
    · rw [if_neg hc] at h
      obtain ⟨pre, pre', suf, h1, h2, h3, h4⟩ :=
        reemplazarLista_descomp i n c' subs c h
      have hr : (reemplazarCat i n c' (.mk cid nom subs uq ts)).1 =
          Categoria.mk cid nom (reemplazarLista i n c' subs).1 uq ts := by
        rw [reemplazarCat, if_neg hc]
      refine ⟨Categoria.mk cid nom subs uq ts :: pre,
        Categoria.mk cid nom (reemplazarLista i n c' subs).1 uq ts :: pre', suf,
        ?_, ?_, ?_, ?_⟩
      · rw [preordenCat, h1]; simp
      · rw [hr, preordenCat, h2]; simp
      · simp [h3, perfil]
      · intro y hy
        rcases List.mem_cons.mp hy with rfl | hy
        · exact Bool.eq_false_iff.mpr hc
        · exact h4 y hy

/-- Decomposition of a forest replacement, as in `reemplazarCat_descomp`. -/
theorem reemplazarLista_descomp (i : Option Nat) (n : Option String) (c' : Categoria) :
    ∀ (cs : List Categoria) (c : Categoria), encontrarEnLista i n cs = some c →
      ∃ pre pre' suf,
        preordenLista cs = pre ++ preordenCat c ++ suf ∧
        preordenLista (reemplazarLista i n c' cs).1 = pre' ++ preordenCat c' ++ suf ∧
        pre'.map perfil = pre.map perfil ∧
        ∀ y ∈ pre, coincide i n y = false
  | [], c, h => by
    simp [encontrarEnLista] at h
  | c0 :: cs, c, h => by
    cases h0 : encontrarCategoriaEnSubcategorias i n c0 with
    | some r =>
      have hrc : r = c := by
        have he : encontrarEnLista i n (c0 :: cs) = some r := by
          rw [encontrarEnLista, h0]
        rw [he] at h
        exact Option.some_inj.mp h
      rw [hrc] at h0
      obtain ⟨pre, pre', suf, h1, h2, h3, h4⟩ :=
        reemplazarCat_descomp i n c' c0 c h0
      have hfl : (reemplazarLista i n c' (c0 :: cs)).1 =
          (reemplazarCat i n c' c0).1 :: cs := by
        rw [reemplazarLista, reemplazarCat_flag i n c' c0, h0]
        simp
      refine ⟨pre, pre', suf ++ preordenLista cs, ?_, ?_, h3, h4⟩
      · rw [preordenLista_cons, h1]; simp
      · rw [hfl, preordenLista_cons, h2]; simp
    | none =>
      have he : encontrarEnLista i n (c0 :: cs) = encontrarEnLista i n cs := by
        rw [encontrarEnLista, h0]
      rw [he] at h
      obtain ⟨pre, pre', suf, h1, h2, h3, h4⟩ :=
        reemplazarLista_descomp i n c' cs c h
      have hfl : (reemplazarLista i n c' (c0 :: cs)).1 =
          c0 :: (reemplazarLista i n c' cs).1 := by
        rw [reemplazarLista, reemplazarCat_flag i n c' c0, h0]
        simp
      refine ⟨preordenCat c0 ++ pre, preordenCat c0 ++ pre', suf, ?_, ?_, ?_, ?_⟩
      · rw [preordenLista_cons, h1]; simp
      · rw [hfl, preordenLista_cons, h2]; simp
      · simp [h3]
      · intro y hy
        rcases List.mem_append.mp hy with hy | hy
        · have hnof := encontrarCat_eq_find i n c0
          rw [h0] at hnof
          exact Bool.eq_false_iff.mpr (List.find?_eq_none.mp hnof.symm y hy)
        · exact h4 y hy

end

theorem coincide_congr (i : Option Nat) (n : Option String) {c c' : Categoria}
    (hid : c'.id = c.id) (hnom : c'.nombre = c.nombre) :
    coincide i n c' = coincide i n c := by
  simp [coincide, hid, hnom]

theorem find?_de_falsos {α : Type} {p : α → Bool} {l1 : List α} (l2 : List α)
    (h : ∀ x ∈ l1, p x = false) : (l1 ++ l2).find? p = l2.find? p := by
  rw [List.find?_append, List.find?_eq_none.mpr (fun x hx => by simp [h x hx])]
  rfl

theorem mem_de_map_eq {α β : Type} {f : α → β} :
    ∀ {l1 l2 : List α}, l1.map f = l2.map f → ∀ y ∈ l1, ∃ z ∈ l2, f y = f z
  | [], _, _, y, hy => absurd hy (by simp)
  | x :: l1, [], h, y, hy => by simp at h
  | x :: l1, z :: l2, h, y, hy => by
    simp only [List.map_cons, List.cons.injEq] at h
    rcases List.mem_cons.mp hy with rfl | hy
    · exact ⟨z, by simp, h.1⟩
    · obtain ⟨w, hw, he⟩ := mem_de_map_eq h.2 y hy
      exact ⟨w, by simp [hw], he⟩

theorem map_congr_de_map {α β γ : Type} {f : α → β} {g : α → γ}
    (hfg : ∀ x y, f x = f y → g x = g y) :
    ∀ {l1 l2 : List α}, l1.map f = l2.map f → l1.map g = l2.map g
  | [], [], _ => rfl
  | [], _ :: _, h => by simp at h
  | _ :: _, [], h => by simp at h
  | x :: l1, y :: l2, h => by
    simp only [List.map_cons, List.cons.injEq] at h ⊢
    exact ⟨hfg x y h.1, map_congr_de_map hfg h.2⟩

theorem find?_map_de_pares {β : Type} {g : Categoria → β} {p : Categoria → Bool} :
    ∀ {l1 l2 : List Categoria},
      l1.map (fun x => (p x, g x)) = l2.map (fun x => (p x, g x)) →
      (l1.find? p).map g = (l2.find? p).map g
  | [], [], _ => rfl
  | [], _ :: _, h => by simp at h
  | _ :: _, [], h => by simp at h
  | x :: l1, y :: l2, h => by
    simp only [List.map_cons, List.cons.injEq, Prod.mk.injEq] at h
    obtain ⟨⟨hp, hg⟩, ht⟩ := h
    rw [List.find?_cons, List.find?_cons, ← hp]
    cases hpx : p x
    · exact find?_map_de_pares ht
    · simp [hg]

/-- Two decompositions of one list around a first satisfier of `p` agree. -/
theorem division_unica {α : Type} (p : α → Bool) :
    ∀ {a b : List α} {x y : α} {u v : List α},
      a ++ x :: u = b ++ y :: v →
      (∀ z ∈ a, p z = false) → (∀ z ∈ b, p z = false) →
      p x = true → p y = true →
      a = b ∧ x = y ∧ u = v
  | [], [], x, y, u, v, h, _, _, _, _ => by
    simp only [List.nil_append, List.cons.injEq] at h
    exact ⟨rfl, h.1, h.2⟩
  | [], b0 :: b, x, y, u, v, h, _, hb, hx, _ => by
    simp only [List.nil_append, List.cons_append, List.cons.injEq] at h
    rw [h.1] at hx
    rw [hb b0 (by simp)] at hx
    cases hx
  | a0 :: a, [], x, y, u, v, h, ha, _, _, hy => by
    simp only [List.cons_append, List.nil_append, List.cons.injEq] at h
    rw [← h.1] at hy
    rw [ha a0 (by simp)] at hy
    cases hy
  | a0 :: a, b0 :: b, x, y, u, v, h, ha, hb, hx, hy => by
    simp only [List.cons_append, List.cons.injEq] at h
    obtain ⟨rfl, h2⟩ := h
    obtain ⟨h3, h4, h5⟩ := division_unica p h2
      (fun z hz => ha z (by simp [hz])) (fun z hz => hb z (by simp [hz])) hx hy
    exact ⟨by rw [h3], h4, h5⟩

/-- Transport of "every prefix node fails the test" along profile
equality. -/
theorem falsos_de_perfil (i : Option Nat) (n : Option String)
    {pre pre' : List Categoria} (h3 : pre'.map perfil = pre.map perfil)
    (h4 : ∀ y ∈ pre, coincide i n y = false) :
    ∀ y ∈ pre', coincide i n y = false := by
  intro y hy
  obtain ⟨z, hz, hperf⟩ := mem_de_map_eq h3 y hy
  rw [coincide_de_perfil i n hperf]
  exact h4 z hz

theorem id_de_perfil {x y : Categoria} (h : perfil x = perfil y) : x.id = y.id := by
  simp only [perfil, Prod.mk.injEq] at h
  exact h.1

/-- All category ids of a forest, in pre-order. -/
def idsDeCategorias (cats : List Categoria) : List Nat :=
  (preordenLista cats).map Categoria.id

/-- All task ids stored in the task lists of a forest. -/
def tidsDeCategorias (cats : List Categoria) : List Nat :=
  ((preordenLista cats).map Categoria.tareas).flatten

/-- Queries that only look at profile data (id, name, urgent queue, task
list) of the category they resolve are unchanged by a replacement that
keeps the replaced node's query-relevant data. -/
theorem consulta_tras_reemplazo {β : Type} (g : Categoria → β)
    (i : Option Nat) (n : Option String) (i' : Option Nat) (n' : Option String)
    {cats : List Categoria} {c c' : Categoria}
    (hf : encontrarEnLista i n cats = some c)
    (hsubs : c'.subcategorias = c.subcategorias)
    (hid : c'.id = c.id) (hnom : c'.nombre = c.nombre)
    (hg : g c' = g c)
    (hpg : ∀ x y, perfil x = perfil y → g x = g y) :
    (encontrarEnLista i' n' ((reemplazarLista i n c' cats).1)).map g =
      (encontrarEnLista i' n' cats).map g := by
  obtain ⟨pre, pre', suf, h1, h2, h3, h4⟩ := reemplazarLista_descomp i n c' cats c hf
  rw [encontrarLista_eq_find, encontrarLista_eq_find, h1, h2]
  apply find?_map_de_pares
  rw [preordenCat_def c, preordenCat_def c', hsubs]
  simp only [List.map_append, List.map_cons]
  have hpre : pre'.map (fun x => (coincide i' n' x, g x)) =
      pre.map (fun x => (coincide i' n' x, g x)) :=
    map_congr_de_map (fun x y hxy => by
      rw [coincide_de_perfil i' n' hxy, hpg x y hxy]) h3
  rw [hpre, coincide_congr i' n' hid hnom, hg]

/-- Repeating the search that selected the replaced node finds the
replacement, provided it keeps the node's id and name. -/
theorem encontrar_reemplazo_mismo (i : Option Nat) (n : Option String)
    {cats : List Categoria} {c c' : Categoria}
    (hf : encontrarEnLista i n cats = some c)
    (hid : c'.id = c.id) (hnom : c'.nombre = c.nombre) :
    encontrarEnLista i n ((reemplazarLista i n c' cats).1) = some c' := by
  obtain ⟨pre, pre', suf, h1, h2, h3, h4⟩ := reemplazarLista_descomp i n c' cats c hf
  have hpc : coincide i n c = true := by
    have hmf := encontrarLista_eq_find i n cats
    rw [hf] at hmf
    exact List.find?_some hmf.symm
  rw [encontrarLista_eq_find, h2, List.append_assoc,
    find?_de_falsos _ (falsos_de_perfil i n h3 h4), preordenCat_def c',
    List.cons_append, List.find?_cons_of_pos]
  rw [coincide_congr i n hid hnom]
  exact hpc

/-- In a forest with pairwise distinct category ids, every node listed
before `c` in pre-order has an id different from `c.id`. -/
theorem pre_falla_id {cats : List Categoria} {c : Categoria}
    {pre suf : List Categoria}
    (h1 : preordenLista cats = pre ++ preordenCat c ++ suf)
    (hnodup : (idsDeCategorias cats).Nodup) :
    ∀ z ∈ pre, coincide (some c.id) none z = false := by
  intro z hz
  have hdisj : z.id ≠ c.id := by
    rw [idsDeCategorias, h1, List.append_assoc] at hnodup
    rw [List.map_append] at hnodup
    have hd := (List.nodup_append.mp hnodup).2.2
    intro he
    refine hd (List.mem_map_of_mem Categoria.id hz) ?_
    rw [he, List.map_append, List.mem_append, preordenCat_def c]
    exact Or.inl (by simp)
  simp only [coincide]
  simp [hdisj, Ne.symm hdisj]

/-- Searching by the replaced node's id finds the replacement, when ids
are pairwise distinct. -/
theorem encontrar_id_reemplazo (i : Option Nat) (n : Option String)
    {cats : List Categoria} {c c' : Categoria}
    (hf : encontrarEnLista i n cats = some c)
    (hid : c'.id = c.id)
    (hnodup : (idsDeCategorias cats).Nodup) :
    encontrarEnLista (some c.id) none ((reemplazarLista i n c' cats).1) = some c' := by
  obtain ⟨pre, pre', suf, h1, h2, h3, h4⟩ := reemplazarLista_descomp i n c' cats c hf
  rw [encontrarLista_eq_find, h2, List.append_assoc,
    find?_de_falsos _ (falsos_de_perfil (some c.id) none h3 (pre_falla_id h1 hnodup)),
    preordenCat_def c', List.cons_append, List.find?_cons_of_pos]
  simp [coincide, hid]

/-- After replacing the node found by a search and then replacing again
through a search by that node's id (as the history engine does), the
original search finds the final replacement.  Pairwise distinct category
ids guarantee that the id search selects the same node. -/
theorem encontrar_tras_doble_reemplazo (i : Option Nat) (n : Option String)
    {cats : List Categoria} {c c1 c2 : Categoria}
    (hf : encontrarEnLista i n cats = some c)
    (hid1 : c1.id = c.id) (_hnom1 : c1.nombre = c.nombre)
    (hid2 : c2.id = c.id) (hnom2 : c2.nombre = c.nombre)
    (hnodup : (idsDeCategorias cats).Nodup) :
    encontrarEnLista i n
      ((reemplazarLista (some c.id) none c2
        ((reemplazarLista i n c1 cats).1)).1) = some c2 := by
  obtain ⟨pre, pre1, suf, h1, h2, h3, h4⟩ := reemplazarLista_descomp i n c1 cats c hf
  have hf2 := encontrar_id_reemplazo i n hf hid1 hnodup
  obtain ⟨pre2, pre2x, suf2, g1, g2, g3, g4⟩ :=
    reemplazarLista_descomp (some c.id) none c2 _ c1 hf2
  have heq : pre1 ++ c1 :: (preordenLista c1.subcategorias ++ suf) =
      pre2 ++ c1 :: (preordenLista c1.subcategorias ++ suf2) := by
    have hx := g1
    rw [h2, preordenCat_def c1] at hx
    simpa [List.append_assoc] using hx
  have hpre1_id : ∀ z ∈ pre1, coincide (some c.id) none z = false :=
    falsos_de_perfil _ _ h3 (pre_falla_id h1 hnodup)
  have hpc1 : coincide (some c.id) none c1 = true := by simp [coincide, hid1]
  obtain ⟨hpp, -, hss⟩ :=
    division_unica (coincide (some c.id) none) heq hpre1_id g4 hpc1 hpc1
  have hsuf : suf2 = suf := (List.append_cancel_left hss).symm
  have hpc : coincide i n c = true := by
    have hmf := encontrarLista_eq_find i n cats
    rw [hf] at hmf
    exact List.find?_some hmf.symm
  rw [encontrarLista_eq_find, g2, hsuf, List.append_assoc, find?_de_falsos]
  · rw [preordenCat_def c2, List.cons_append, List.find?_cons_of_pos]
    rw [coincide_congr i n hid2 hnom2]
    exact hpc
  · apply falsos_de_perfil i n ?_ h4
    rw [g3, ← hpp, h3]

/-- C7: `encontrarCategoria` visits categories in depth-first pre-order
and returns the first category whose id equals the supplied id or whose
name equals the supplied name (so with both criteria supplied, a category
matching on id alone is returned even if its name differs), and it returns
`none` exactly when no category in the forest matches either criterion. -/
theorem encontrarCategoria_primero_preorden (i : Option Nat) (n : Option String)
    (cats : List Categoria) :
    encontrarCategoria i n cats =
      (preorden cats).find? (fun c => i == some c.id || n == some c.nombre) ∧
    (encontrarCategoria i n cats = none ↔
      ∀ c ∈ preorden cats, ¬(i = some c.id ∨ n = some c.nombre)) := by
  have hbase : encontrarCategoria i n cats = (preorden cats).find? (coincide i n) :=
    encontrarLista_eq_find i n cats
  refine ⟨hbase, ?_⟩
  rw [hbase, List.find?_eq_none]
  constructor
  · intro hall c hc hor
    have := hall c hc
    simp only [coincide] at this
    rcases hor with hor | hor
    · exact this (by simp [hor])
    · exact this (by simp [hor])
  · intro hall c hc
    have := hall c hc
    simp only [coincide]
    simp only [not_or] at this
    simp [this.1, this.2]

/-- C3 counterexample: creating category "A" and then subcategory "A"
under it yields two categories named "A" in the forest, so the name
uniqueness invariant fails in a reachable state. -/
theorem nombres_duplicados_alcanzables :
    correr [Op.agregarCategoria "A", Op.agregarSubcategoria "A" "A"] inicial =
      some { categorias := [Categoria.mk 1 "A" [Categoria.mk 2 "A" [] [] []] [] []],
             idCategoria := 3, idTarea := 1, historial_acciones := [],
             historial_deshacer := [], tareasVivas := [], idsAsignados := [] } ∧
    ¬ ((preorden [Categoria.mk 1 "A" [Categoria.mk 2 "A" [] [] []] [] []]).map
        Categoria.nombre).Nodup := by
  exact ⟨by decide, by decide⟩

/-- C3 amended: `agregarCategoria` does enforce its check against the
whole forest — a successful root creation implies no category anywhere had
that name — but `agregarSubcategoria` performs no check, so duplicates are
reachable (see the counterexample). -/
theorem agregarCategoria_nombre_fresco (m m' : Manejador) (nombre : String)
    (h : paso (Op.agregarCategoria nombre) m = some (Salida.ok, m')) :
    ∀ c ∈ preorden m.categorias, c.nombre ≠ nombre := by
  intro c hc he
  simp only [paso, agregarCategoria] at h
  cases hf : encontrarCategoria none (some nombre) m.categorias with
  | some d => rw [hf] at h; simp at h
  | none =>
    have hall := encontrarLista_eq_find none (some nombre) m.categorias
    rw [show encontrarEnLista none (some nombre) m.categorias = none from hf] at hall
    have hc2 := List.find?_eq_none.mp hall.symm c hc
    simp [coincide, he] at hc2

/-- Witness for the C3 amended theorem at a concrete state: after
category "B" exists, adding "A" succeeds, so "B" is not named "A". -/
theorem agregarCategoria_nombre_fresco_testigo :
    (Categoria.mk 1 "B" [] [] []).nombre ≠ "A" :=
  agregarCategoria_nombre_fresco
    { categorias := [Categoria.mk 1 "B" [] [] []], idCategoria := 2, idTarea := 1,
      historial_acciones := [], historial_deshacer := [], tareasVivas := [],
      idsAsignados := [] }
    { categorias := [Categoria.mk 1 "B" [] [] [], Categoria.mk 2 "A" [] [] []],
      idCategoria := 3, idTarea := 1,
      historial_acciones := [], historial_deshacer := [], tareasVivas := [],
      idsAsignados := [] } "A" (by decide)
    (Categoria.mk 1 "B" [] [] []) (by decide)

/-- C1: the code slip in `rehacer`.  After adding task 1 with title "t",
description "d", priority 1 and due date 5, modifying it to ("t2", "d2",
2, 7), undoing and redoing, the live task holds the PRE-modification
values again: the `modificar` branch of `rehacer` re-applies the fields of
`tarea_anterior` (copy-pasted from `deshacer`) instead of the
post-modification values its own documentation promises. -/
theorem rehacer_modificar_restaura_valores_antiguos :
    (correr [Op.agregarCategoria "A", Op.agregarTarea "t" "d" 1 5 "A",
      Op.modificarTarea 1 "t2" "d2" 2 7 "A", Op.deshacer, Op.rehacer] inicial).map
      (fun m => buscarTarea 1 m.tareasVivas) =
    some (some { id := 1, titulo := "t", descripcion := "d", prioridad := 1,
                 fecha_vencimiento := 5 }) := by decide

/-- C2 counterexample: a stale `eliminar` record on the redo stack makes
`rehacer` call `list.remove` on a task that is no longer in the category's
task list, raising an uncaught `ValueError` (modelled by `none`): add task
1, remove it, undo the removal, remove it again, then redo. -/
theorem rehacer_registro_obsoleto_aborta :
    correr [Op.agregarCategoria "A", Op.agregarTarea "t" "d" 1 0 "A",
      Op.eliminarTarea 1 "A", Op.deshacer, Op.eliminarTarea 1 "A",
      Op.rehacer] inicial = none := by decide

/-- C4: stack discipline of the history engine.  A successful add, remove
or modify pushes exactly one record on the undo stack and leaves the redo
stack untouched (it is never cleared); a successful undo pops one record
from the undo stack and pushes that same record on the redo stack; a
successful redo does the reverse. -/
theorem disciplina_de_pilas (op : Op) (m m' : Manejador)
    (h : paso op m = some (Salida.ok, m')) :
    (esMutadoraTarea op = true →
      ∃ r, m'.historial_acciones = r :: m.historial_acciones ∧
           m'.historial_deshacer = m.historial_deshacer) ∧
    (op = Op.deshacer →
      ∃ r, m.historial_acciones = r :: m'.historial_acciones ∧
           m'.historial_deshacer = r :: m.historial_deshacer) ∧
    (op = Op.rehacer →
      ∃ r, m.historial_deshacer = r :: m'.historial_deshacer ∧
           m'.historial_acciones = r :: m.historial_acciones) := by
  cases op with
  | agregarCategoria n =>
    exact ⟨fun hx => by simp [esMutadoraTarea] at hx,
      fun hx => by simp at hx, fun hx => by simp at hx⟩
  | agregarSubcategoria n nc =>
    exact ⟨fun hx => by simp [esMutadoraTarea] at hx,
      fun hx => by simp at hx, fun hx => by simp at hx⟩
  | agregarTareaUrgente t d p f nc =>
    exact ⟨fun hx => by simp [esMutadoraTarea] at hx,
      fun hx => by simp at hx, fun hx => by simp at hx⟩
  | procesarTareaUrgente nc =>
    exact ⟨fun hx => by simp [esMutadoraTarea] at hx,
      fun hx => by simp at hx, fun hx => by simp at hx⟩
  | agregarTarea t d p f nc =>
    refine ⟨fun _ => ?_, fun hx => by simp at hx, fun hx => by simp at hx⟩
    cases hf : encontrarCategoria none (some nc) m.categorias with
    | none => simp [paso, agregarTarea, hf] at h
    | some c =>
      simp only [paso, agregarTarea, hf, Option.some.injEq, Prod.mk.injEq] at h
      obtain ⟨-, rfl⟩ := h
      exact ⟨.agregar m.idTarea c.id, rfl, rfl⟩
  | eliminarTarea tid nc =>
    refine ⟨fun _ => ?_, fun hx => by simp at hx, fun hx => by simp at hx⟩
    cases hf : encontrarCategoria none (some nc) m.categorias with
    | none => simp [paso, eliminarTarea, hf] at h
    | some c =>
      simp only [paso, eliminarTarea, hf] at h
      by_cases hmem : tid ∈ c.tareas
      · rw [if_pos hmem] at h
        simp only [Option.some.injEq, Prod.mk.injEq] at h
        obtain ⟨-, rfl⟩ := h
        exact ⟨.eliminar tid c.id, rfl, rfl⟩
      · rw [if_neg hmem] at h
        simp at h
  | modificarTarea tid t d p f nc =>
    refine ⟨fun _ => ?_, fun hx => by simp at hx, fun hx => by simp at hx⟩
    cases hf : encontrarCategoria none (some nc) m.categorias with
    | none => simp [paso, modificarTarea, hf] at h
    | some c =>
      simp only [paso, modificarTarea, hf] at h
      by_cases hmem : tid ∈ c.tareas
      · rw [if_pos hmem] at h
        cases hb : buscarTarea tid m.tareasVivas with
        | none => rw [hb] at h; simp at h
        | some anterior =>
          rw [hb] at h
          simp only [Option.some.injEq, Prod.mk.injEq] at h
          obtain ⟨-, rfl⟩ := h
          exact ⟨.modificar anterior tid c.id, rfl, rfl⟩
      · rw [if_neg hmem] at h
        simp at h
  | deshacer =>
    refine ⟨fun hx => by simp [esMutadoraTarea] at hx, fun _ => ?_,
      fun hx => by simp at hx⟩
    cases ha : m.historial_acciones with
    | nil => simp [paso, deshacer, ha] at h
    | cons a resto =>
      cases a with
      | agregar tid cid =>
        cases hf : encontrarCategoria (some cid) none m.categorias with
        | none => simp [paso, deshacer, ha, hf] at h
        | some c =>
          simp only [paso, deshacer, ha, hf] at h
          by_cases hmem : tid ∈ c.tareas
          · rw [if_pos hmem] at h
            simp only [Option.some.injEq, Prod.mk.injEq] at h
            obtain ⟨-, rfl⟩ := h
            exact ⟨.agregar tid cid, rfl, rfl⟩
          · rw [if_neg hmem] at h; simp at h
      | eliminar tid cid =>
        cases hf : encontrarCategoria (some cid) none m.categorias with
        | none => simp [paso, deshacer, ha, hf] at h
        | some c =>
          simp only [paso, deshacer, ha, hf, Option.some.injEq, Prod.mk.injEq] at h
          obtain ⟨-, rfl⟩ := h
          exact ⟨.eliminar tid cid, rfl, rfl⟩
      | modificar anterior tid cid =>
        simp only [paso, deshacer, ha, Option.some.injEq, Prod.mk.injEq] at h
        obtain ⟨-, rfl⟩ := h
        exact ⟨.modificar anterior tid cid, rfl, rfl⟩
  | rehacer =>
    refine ⟨fun hx => by simp [esMutadoraTarea] at hx, fun hx => by simp at hx,
      fun _ => ?_⟩
    cases ha : m.historial_deshacer with
    | nil => simp [paso, rehacer, ha] at h
    | cons a resto =>
      cases a with
      | agregar tid cid =>
        cases hf : encontrarCategoria (some cid) none m.categorias with
        | none => simp [paso, rehacer, ha, hf] at h
        | some c =>
          simp only [paso, rehacer, ha, hf, Option.some.injEq, Prod.mk.injEq] at h
          obtain ⟨-, rfl⟩ := h
          exact ⟨.agregar tid cid, rfl, rfl⟩
      | eliminar tid cid =>
        cases hf : encontrarCategoria (some cid) none m.categorias with
        | none => simp [paso, rehacer, ha, hf] at h
        | some c =>
          simp only [paso, rehacer, ha, hf] at h
          by_cases hmem : tid ∈ c.tareas
          · rw [if_pos hmem] at h
            simp only [Option.some.injEq, Prod.mk.injEq] at h
            obtain ⟨-, rfl⟩ := h
            exact ⟨.eliminar tid cid, rfl, rfl⟩
          · rw [if_neg hmem] at h; simp at h
      | modificar anterior tid cid =>
        simp only [paso, rehacer, ha, Option.some.injEq, Prod.mk.injEq] at h
        obtain ⟨-, rfl⟩ := h
        exact ⟨.modificar anterior tid cid, rfl, rfl⟩

/-- Witness for C4 at a concrete successful `agregarTarea`. -/
theorem disciplina_de_pilas_testigo :
    ∃ r, ((agregarTarea "t" "d" 1 0 "A" (agregarCategoria "A" inicial).2).2).historial_acciones =
          r :: ((agregarCategoria "A" inicial).2).historial_acciones ∧
         ((agregarTarea "t" "d" 1 0 "A" (agregarCategoria "A" inicial).2).2).historial_deshacer =
          ((agregarCategoria "A" inicial).2).historial_deshacer :=
  (disciplina_de_pilas (Op.agregarTarea "t" "d" 1 0 "A") (agregarCategoria "A" inicial).2
    (agregarTarea "t" "d" 1 0 "A" (agregarCategoria "A" inicial).2).2 (by decide)).1 (by decide)

theorem nombre_de_perfil {x y : Categoria} (h : perfil x = perfil y) :
    x.nombre = y.nombre := by
  simp only [perfil, Prod.mk.injEq] at h
  exact h.2.1

theorem cola_de_perfil {x y : Categoria} (h : perfil x = perfil y) :
    x.tareasUrgentes = y.tareasUrgentes := by
  simp only [perfil, Prod.mk.injEq] at h
  exact h.2.2.1

theorem tareas_de_perfil {x y : Categoria} (h : perfil x = perfil y) :
    x.tareas = y.tareas := by
  simp only [perfil, Prod.mk.injEq] at h
  exact h.2.2.2

theorem forall₂_append_mio {α β : Type} {R : α → β → Prop} :
    ∀ {l1 l3 : List α} {l2 l4 : List β}, List.Forall₂ R l1 l2 →
      List.Forall₂ R l3 l4 → List.Forall₂ R (l1 ++ l3) (l2 ++ l4)
  | _, _, _, _, .nil, h2 => h2
  | _, _, _, _, .cons h t, h2 => .cons h (forall₂_append_mio t h2)

theorem forall₂_de_map_eq {α β : Type} {f : α → β} :
    ∀ {l1 l2 : List α}, l1.map f = l2.map f →
      List.Forall₂ (fun x y => f x = f y) l1 l2
  | [], [], _ => .nil
  | [], _ :: _, h => by simp at h
  | _ :: _, [], h => by simp at h
  | _ :: _, _ :: _, h => by
    simp only [List.map_cons, List.cons.injEq] at h
    exact .cons h.1 (forall₂_de_map_eq h.2)

theorem find?_map_condicional {β : Type} {g : Categoria → β} {p : Categoria → Bool}
    {l1 l2 : List Categoria}
    (h : List.Forall₂ (fun x y => p x = p y ∧ (p x = true → g x = g y)) l1 l2) :
    (l1.find? p).map g = (l2.find? p).map g := by
  induction h with
  | nil => rfl
  | cons hxy hl ih =>
    rename_i x y l1' l2'
    obtain ⟨hp, hg⟩ := hxy
    rw [List.find?_cons, List.find?_cons, ← hp]
    cases hpx : p x
    · simpa using ih
    · simp [hg hpx]

/-- General query-preservation through a replacement: any query projected
through a profile-determined view `g` is unchanged, provided the view of
the replaced node is unchanged whenever that node can be the query's
answer. -/
theorem consulta_tras_reemplazo_gen {β : Type} (g : Categoria → β)
    (i : Option Nat) (n : Option String) (i' : Option Nat) (n' : Option String)
    {cats : List Categoria} {c c' : Categoria}
    (hf : encontrarEnLista i n cats = some c)
    (hsubs : c'.subcategorias = c.subcategorias)
    (hid : c'.id = c.id) (hnom : c'.nombre = c.nombre)
    (hg : coincide i' n' c = true → g c' = g c)
    (hpg : ∀ x y, perfil x = perfil y → g x = g y) :
    (encontrarEnLista i' n' ((reemplazarLista i n c' cats).1)).map g =
      (encontrarEnLista i' n' cats).map g := by
  obtain ⟨pre, pre', suf, h1, h2, h3, h4⟩ := reemplazarLista_descomp i n c' cats c hf
  rw [encontrarLista_eq_find, encontrarLista_eq_find, h1, h2]
  apply find?_map_condicional
  refine forall₂_append_mio (forall₂_append_mio ?_ ?_) ?_
  · exact (forall₂_de_map_eq h3).imp
      (fun x y hxy => ⟨coincide_de_perfil i' n' hxy, fun _ => hpg x y hxy⟩)
  · rw [preordenCat_def c, preordenCat_def c', hsubs]
    refine List.Forall₂.cons
      ⟨coincide_congr i' n' hid hnom,
       fun hp => hg (by rwa [coincide_congr i' n' hid hnom] at hp)⟩ ?_
    exact List.forall₂_same.mpr (fun x _ => ⟨rfl, fun _ => rfl⟩)
  · exact List.forall₂_same.mpr (fun x _ => ⟨rfl, fun _ => rfl⟩)

/-- C10: frame property of `procesarTareaUrgente`.  When it returns a
task, that task was the head of the named category's urgent queue; the
queue loses exactly its head; the dequeued task is not inserted into any
category's task list (every task-list query is unchanged); urgent queues
of categories other than the resolved one are unchanged; and the history
stacks, both id counters, the task heap and the ghost allocation list keep
their values. -/
theorem procesar_urgente_marco (nom : String) (m m' : Manejador) (t : Tarea)
    (h : paso (Op.procesarTareaUrgente nom) m = some (Salida.okTarea t, m')) :
    ∃ c cola, encontrarCategoria none (some nom) m.categorias = some c ∧
      c.tareasUrgentes = t :: cola ∧
      (encontrarCategoria none (some nom) m'.categorias).map Categoria.tareasUrgentes =
        some cola ∧
      (∀ (i' : Option Nat) (n' : Option String),
        (encontrarCategoria i' n' m'.categorias).map Categoria.tareas =
        (encontrarCategoria i' n' m.categorias).map Categoria.tareas) ∧
      (∀ (i' : Option Nat) (n' : Option String), coincide i' n' c = false →
        (encontrarCategoria i' n' m'.categorias).map Categoria.tareasUrgentes =
        (encontrarCategoria i' n' m.categorias).map Categoria.tareasUrgentes) ∧
      m'.idCategoria = m.idCategoria ∧ m'.idTarea = m.idTarea ∧
      m'.historial_acciones = m.historial_acciones ∧
      m'.historial_deshacer = m.historial_deshacer ∧
      m'.tareasVivas = m.tareasVivas ∧ m'.idsAsignados = m.idsAsignados := by
  cases hf : encontrarCategoria none (some nom) m.categorias with
  | none => simp [paso, procesarTareaUrgente, hf] at h
  | some c =>
    cases hq : c.tareasUrgentes with
    | nil => simp [paso, procesarTareaUrgente, hf, hq] at h
    | cons t0 cola =>
      simp only [paso, procesarTareaUrgente, hf, hq, Option.some.injEq,
        Prod.mk.injEq, Salida.okTarea.injEq] at h
      obtain ⟨rfl, rfl⟩ := h
      refine ⟨c, cola, rfl, hq, ?_, ?_, ?_, rfl, rfl, rfl, rfl, rfl, rfl⟩
      · have := encontrar_reemplazo_mismo none (some nom) hf
          (Categoria.id_conCola c cola) (Categoria.nombre_conCola c cola)
        simp only [encontrarCategoria] at this ⊢
        rw [this]
        simp
      · intro i' n'
        exact consulta_tras_reemplazo_gen Categoria.tareas none (some nom) i' n' hf
          (Categoria.subcategorias_conCola c cola) (Categoria.id_conCola c cola)
          (Categoria.nombre_conCola c cola) (fun _ => Categoria.tareas_conCola c cola)
          (fun x y hxy => tareas_de_perfil hxy)
      · intro i' n' hno
        exact consulta_tras_reemplazo_gen Categoria.tareasUrgentes none (some nom) i' n' hf
          (Categoria.subcategorias_conCola c cola) (Categoria.id_conCola c cola)
          (Categoria.nombre_conCola c cola)
          (fun hp => absurd hp (by simp [hno]))
          (fun x y hxy => cola_de_perfil hxy)

/-- Witness for C10 at a concrete dequeue. -/
theorem procesar_urgente_marco_testigo :
    ∃ c cola,
      encontrarCategoria none (some "A")
        ((agregarTareaUrgente "u" "d" 1 0 "A" (agregarCategoria "A" inicial).2).2).categorias =
        some c ∧
      c.tareasUrgentes = Tarea.mk 1 "u" "d" 1 0 :: cola ∧
      (encontrarCategoria none (some "A")
        ((procesarTareaUrgente "A"
          (agregarTareaUrgente "u" "d" 1 0 "A" (agregarCategoria "A" inicial).2).2).2).categorias).map
        Categoria.tareasUrgentes = some cola ∧
      (∀ (i' : Option Nat) (n' : Option String),
        (encontrarCategoria i' n'
          ((procesarTareaUrgente "A"
            (agregarTareaUrgente "u" "d" 1 0 "A" (agregarCategoria "A" inicial).2).2).2).categorias).map
          Categoria.tareas =
        (encontrarCategoria i' n'
          ((agregarTareaUrgente "u" "d" 1 0 "A" (agregarCategoria "A" inicial).2).2).categorias).map
          Categoria.tareas) ∧
      (∀ (i' : Option Nat) (n' : Option String), coincide i' n' c = false →
        (encontrarCategoria i' n'
          ((procesarTareaUrgente "A"
            (agregarTareaUrgente "u" "d" 1 0 "A" (agregarCategoria "A" inicial).2).2).2).categorias).map
          Categoria.tareasUrgentes =
        (encontrarCategoria i' n'
          ((agregarTareaUrgente "u" "d" 1 0 "A" (agregarCategoria "A" inicial).2).2).categorias).map
          Categoria.tareasUrgentes) ∧
      ((procesarTareaUrgente "A"
        (agregarTareaUrgente "u" "d" 1 0 "A" (agregarCategoria "A" inicial).2).2).2).idCategoria =
        ((agregarTareaUrgente "u" "d" 1 0 "A" (agregarCategoria "A" inicial).2).2).idCategoria ∧
      ((procesarTareaUrgente "A"
        (agregarTareaUrgente "u" "d" 1 0 "A" (agregarCategoria "A" inicial).2).2).2).idTarea =
        ((agregarTareaUrgente "u" "d" 1 0 "A" (agregarCategoria "A" inicial).2).2).idTarea ∧
      ((procesarTareaUrgente "A"
        (agregarTareaUrgente "u" "d" 1 0 "A" (agregarCategoria "A" inicial).2).2).2).historial_acciones =
        ((agregarTareaUrgente "u" "d" 1 0 "A" (agregarCategoria "A" inicial).2).2).historial_acciones ∧
      ((procesarTareaUrgente "A"
        (agregarTareaUrgente "u" "d" 1 0 "A" (agregarCategoria "A" inicial).2).2).2).historial_deshacer =
        ((agregarTareaUrgente "u" "d" 1 0 "A" (agregarCategoria "A" inicial).2).2).historial_deshacer ∧
      ((procesarTareaUrgente "A"
        (agregarTareaUrgente "u" "d" 1 0 "A" (agregarCategoria "A" inicial).2).2).2).tareasVivas =
        ((agregarTareaUrgente "u" "d" 1 0 "A" (agregarCategoria "A" inicial).2).2).tareasVivas ∧
      ((procesarTareaUrgente "A"
        (agregarTareaUrgente "u" "d" 1 0 "A" (agregarCategoria "A" inicial).2).2).2).idsAsignados =
        ((agregarTareaUrgente "u" "d" 1 0 "A" (agregarCategoria "A" inicial).2).2).idsAsignados :=
  procesar_urgente_marco "A"
    (agregarTareaUrgente "u" "d" 1 0 "A" (agregarCategoria "A" inicial).2).2
    (procesarTareaUrgente "A"
      (agregarTareaUrgente "u" "d" 1 0 "A" (agregarCategoria "A" inicial).2).2).2
    (Tarea.mk 1 "u" "d" 1 0) (by decide)

/-- `deshacer` and `rehacer` never touch any urgent queue nor the task id
counter: the urgent queue a name resolves to is unchanged. -/
theorem hist_op_preserva_cola (op : Op) (hop : esHistOp op = true)
    (m m' : Manejador) (s : Salida) (h : paso op m = some (s, m'))
    (nom : String) :
    colaPorNombre nom m'.categorias = colaPorNombre nom m.categorias ∧
    m'.idTarea = m.idTarea := by
  cases op with
  | deshacer =>
    cases ha : m.historial_acciones with
    | nil =>
      simp only [paso, deshacer, ha, Option.some.injEq, Prod.mk.injEq] at h
      rw [← h.2]
      exact ⟨rfl, rfl⟩
    | cons a resto =>
      cases a with
      | agregar tid cid =>
        cases hf : encontrarCategoria (some cid) none m.categorias with
        | none => simp [paso, deshacer, ha, hf] at h
        | some c =>
          simp only [paso, deshacer, ha, hf] at h
          by_cases hmem : tid ∈ c.tareas
          · rw [if_pos hmem] at h
            simp only [Option.some.injEq, Prod.mk.injEq] at h
            obtain ⟨-, rfl⟩ := h
            refine ⟨?_, rfl⟩
            exact consulta_tras_reemplazo_gen Categoria.tareasUrgentes
              (some cid) none none (some nom) hf (by simp) (by simp) (by simp)
              (fun _ => by simp) (fun x y hxy => cola_de_perfil hxy)
          · rw [if_neg hmem] at h; simp at h
      | eliminar tid cid =>
        cases hf : encontrarCategoria (some cid) none m.categorias with
        | none => simp [paso, deshacer, ha, hf] at h
        | some c =>
          simp only [paso, deshacer, ha, hf, Option.some.injEq, Prod.mk.injEq] at h
          obtain ⟨-, rfl⟩ := h
          refine ⟨?_, rfl⟩
          exact consulta_tras_reemplazo_gen Categoria.tareasUrgentes
            (some cid) none none (some nom) hf (by simp) (by simp) (by simp)
            (fun _ => by simp) (fun x y hxy => cola_de_perfil hxy)
      | modificar anterior tid cid =>
        simp only [paso, deshacer, ha, Option.some.injEq, Prod.mk.injEq] at h
        obtain ⟨-, rfl⟩ := h
        exact ⟨rfl, rfl⟩
  | rehacer =>
    cases ha : m.historial_deshacer with
    | nil =>
      simp only [paso, rehacer, ha, Option.some.injEq, Prod.mk.injEq] at h
      rw [← h.2]
      exact ⟨rfl, rfl⟩
    | cons a resto =>
      cases a with
      | agregar tid cid =>
        cases hf : encontrarCategoria (some cid) none m.categorias with
        | none => simp [paso, rehacer, ha, hf] at h
        | some c =>
          simp only [paso, rehacer, ha, hf, Option.some.injEq, Prod.mk.injEq] at h
          obtain ⟨-, rfl⟩ := h
          refine ⟨?_, rfl⟩
          exact consulta_tras_reemplazo_gen Categoria.tareasUrgentes
            (some cid) none none (some nom) hf (by simp) (by simp) (by simp)
            (fun _ => by simp) (fun x y hxy => cola_de_perfil hxy)
      | eliminar tid cid =>
        cases hf : encontrarCategoria (some cid) none m.categorias with
        | none => simp [paso, rehacer, ha, hf] at h
        | some c =>
          simp only [paso, rehacer, ha, hf] at h
          by_cases hmem : tid ∈ c.tareas
          · rw [if_pos hmem] at h
            simp only [Option.some.injEq, Prod.mk.injEq] at h
            obtain ⟨-, rfl⟩ := h
            refine ⟨?_, rfl⟩
            exact consulta_tras_reemplazo_gen Categoria.tareasUrgentes
              (some cid) none none (some nom) hf (by simp) (by simp) (by simp)
              (fun _ => by simp) (fun x y hxy => cola_de_perfil hxy)
          · rw [if_neg hmem] at h; simp at h
      | modificar anterior tid cid =>
        simp only [paso, rehacer, ha, Option.some.injEq, Prod.mk.injEq] at h
        obtain ⟨-, rfl⟩ := h
        exact ⟨rfl, rfl⟩
  | agregarCategoria n => simp [esHistOp] at hop
  | agregarSubcategoria n nc => simp [esHistOp] at hop
  | agregarTarea t d p f nc => simp [esHistOp] at hop
  | eliminarTarea i nc => simp [esHistOp] at hop
  | modificarTarea i t d p f nc => simp [esHistOp] at hop
  | agregarTareaUrgente t d p f nc => simp [esHistOp] at hop
  | procesarTareaUrgente nc => simp [esHistOp] at hop

/-- A whole run of undo/redo operations keeps every urgent queue and the
task id counter unchanged. -/
theorem correr_hist_preserva (nom : String) :
    ∀ (u : List Op) (a b : Manejador), (∀ op ∈ u, esHistOp op = true) →
      correr u a = some b →
      colaPorNombre nom b.categorias = colaPorNombre nom a.categorias ∧
      b.idTarea = a.idTarea
  | [], a, b, _, h => by
    simp only [correr, Option.some.injEq] at h
    rw [h]
    exact ⟨rfl, rfl⟩
  | op :: u, a, b, hu, h => by
    cases hp : paso op a with
    | none => rw [correr, hp] at h; cases h
    | some sm =>
      rw [correr, hp] at h
      obtain ⟨s, a'⟩ := sm
      obtain ⟨hc1, hi1⟩ := hist_op_preserva_cola op (hu op (by simp)) a a' s hp nom
      obtain ⟨hc2, hi2⟩ := correr_hist_preserva nom u a' b
        (fun x hx => hu x (by simp [hx])) h
      exact ⟨hc2.trans hc1, hi2.trans hi1⟩

/-- Effect of `agregarTareaUrgente` on the queue it targets. -/
theorem agregar_urgente_efecto (t d : String) (p f : Nat) (nom : String)
    {a b : Manejador} {q : List Tarea}
    (hq : colaPorNombre nom a.categorias = some q)
    (h : paso (Op.agregarTareaUrgente t d p f nom) a = some (Salida.ok, b)) :
    colaPorNombre nom b.categorias = some (q ++ [⟨a.idTarea, t, d, p, f⟩]) ∧
    b.idTarea = a.idTarea + 1 := by
  cases hf : encontrarCategoria none (some nom) a.categorias with
  | none => simp [paso, agregarTareaUrgente, hf] at h
  | some c =>
    have hcq : c.tareasUrgentes = q := by
      rw [colaPorNombre, hf] at hq
      simpa using hq
    simp only [paso, agregarTareaUrgente, hf, Option.some.injEq, Prod.mk.injEq] at h
    obtain ⟨-, rfl⟩ := h
    refine ⟨?_, rfl⟩
    have := encontrar_reemplazo_mismo none (some nom) hf
      (Categoria.id_conCola c (c.tareasUrgentes ++ [⟨a.idTarea, t, d, p, f⟩]))
      (Categoria.nombre_conCola c (c.tareasUrgentes ++ [⟨a.idTarea, t, d, p, f⟩]))
    rw [colaPorNombre]
    simp only [encontrarCategoria] at this ⊢
    rw [this]
    simp [hcq]

/-- Effect of `procesarTareaUrgente` on a non-empty queue. -/
theorem procesar_urgente_efecto (nom : String) {a : Manejador} {x : Tarea}
    {r : List Tarea} (hq : colaPorNombre nom a.categorias = some (x :: r)) :
    ∃ b, paso (Op.procesarTareaUrgente nom) a = some (Salida.okTarea x, b) ∧
      colaPorNombre nom b.categorias = some r ∧ b.idTarea = a.idTarea := by
  cases hf : encontrarCategoria none (some nom) a.categorias with
  | none => rw [colaPorNombre, hf] at hq; simp at hq
  | some c =>
    have hcq : c.tareasUrgentes = x :: r := by
      rw [colaPorNombre, hf] at hq
      simpa using hq
    refine ⟨{ a with categorias :=
      (reemplazarLista none (some nom) (c.conCola r) a.categorias).1 }, ?_, ?_, rfl⟩
    · simp only [paso, procesarTareaUrgente, hf, hcq]
    · have := encontrar_reemplazo_mismo none (some nom) hf
        (Categoria.id_conCola c r) (Categoria.nombre_conCola c r)
      rw [colaPorNombre]
      simp only [encontrarCategoria] at this ⊢
      rw [this]
      simp

/-- C8: strict FIFO of the urgent channel.  Starting from a state whose
named category has an empty urgent queue, enqueuing three urgent tasks and
then dequeuing three times returns exactly those tasks in enqueue order,
no matter which undo/redo calls (that complete without raising) are
interleaved between the six operations; and dequeuing from an empty urgent
queue reports that there are no urgent tasks and leaves the state
untouched. -/
theorem cola_urgente_fifo
    (m0 m1 m2 m3 m4 m5 m6 m7 m8 m9 m10 m11 : Manejador) (nom : String)
    (t1 d1 : String) (p1 f1 : Nat) (t2 d2 : String) (p2 f2 : Nat)
    (t3 d3 : String) (p3 f3 : Nat)
    (u1 u2 u3 u4 u5 : List Op) (s1 s2 s3 : Salida)
    (hq0 : colaPorNombre nom m0.categorias = some [])
    (hu1 : ∀ op ∈ u1, esHistOp op = true)
    (hu2 : ∀ op ∈ u2, esHistOp op = true)
    (hu3 : ∀ op ∈ u3, esHistOp op = true)
    (hu4 : ∀ op ∈ u4, esHistOp op = true)
    (hu5 : ∀ op ∈ u5, esHistOp op = true)
    (h1 : paso (Op.agregarTareaUrgente t1 d1 p1 f1 nom) m0 = some (Salida.ok, m1))
    (hr1 : correr u1 m1 = some m2)
    (h2 : paso (Op.agregarTareaUrgente t2 d2 p2 f2 nom) m2 = some (Salida.ok, m3))
    (hr2 : correr u2 m3 = some m4)
    (h3 : paso (Op.agregarTareaUrgente t3 d3 p3 f3 nom) m4 = some (Salida.ok, m5))
    (hr3 : correr u3 m5 = some m6)
    (hd1 : paso (Op.procesarTareaUrgente nom) m6 = some (s1, m7))
    (hr4 : correr u4 m7 = some m8)
    (hd2 : paso (Op.procesarTareaUrgente nom) m8 = some (s2, m9))
    (hr5 : correr u5 m9 = some m10)
    (hd3 : paso (Op.procesarTareaUrgente nom) m10 = some (s3, m11)) :
    (s1 = Salida.okTarea ⟨m0.idTarea, t1, d1, p1, f1⟩ ∧
     s2 = Salida.okTarea ⟨m0.idTarea + 1, t2, d2, p2, f2⟩ ∧
     s3 = Salida.okTarea ⟨m0.idTarea + 2, t3, d3, p3, f3⟩) ∧
    (∀ (w : Manejador) (nm : String), colaPorNombre nm w.categorias = some [] →
      paso (Op.procesarTareaUrgente nm) w = some (Salida.sinTareasUrgentes, w)) := by
  have vacia : ∀ (w : Manejador) (nm : String),
      colaPorNombre nm w.categorias = some [] →
      paso (Op.procesarTareaUrgente nm) w = some (Salida.sinTareasUrgentes, w) := by
    intro w nm hq
    cases hf : encontrarCategoria none (some nm) w.categorias with
    | none => rw [colaPorNombre, hf] at hq; simp at hq
    | some c =>
      have hcq : c.tareasUrgentes = [] := by
        rw [colaPorNombre, hf] at hq
        simpa using hq
      simp [paso, procesarTareaUrgente, hf, hcq]
  refine ⟨?_, vacia⟩
  obtain ⟨e1q, e1i⟩ := agregar_urgente_efecto t1 d1 p1 f1 nom hq0 h1
  obtain ⟨p1q, p1i⟩ := correr_hist_preserva nom u1 m1 m2 hu1 hr1
  rw [e1q] at p1q
  rw [e1i] at p1i
  obtain ⟨e2q, e2i⟩ := agregar_urgente_efecto t2 d2 p2 f2 nom p1q h2
  rw [p1i] at e2q e2i
  obtain ⟨p2q, p2i⟩ := correr_hist_preserva nom u2 m3 m4 hu2 hr2
  rw [e2q] at p2q
  rw [e2i] at p2i
  obtain ⟨e3q, e3i⟩ := agregar_urgente_efecto t3 d3 p3 f3 nom p2q h3
  rw [p2i] at e3q e3i
  obtain ⟨p3q, p3i⟩ := correr_hist_preserva nom u3 m5 m6 hu3 hr3
  rw [e3q] at p3q
  simp only [List.nil_append, List.cons_append] at p3q
  obtain ⟨b1, hb1, hb1q, hb1i⟩ := procesar_urgente_efecto nom p3q
  have hx1 := hd1.symm.trans hb1
  simp only [Option.some.injEq, Prod.mk.injEq] at hx1
  obtain ⟨hs1, hm7⟩ := hx1
  subst hm7
  obtain ⟨p4q, p4i⟩ := correr_hist_preserva nom u4 m7 m8 hu4 hr4
  rw [hb1q] at p4q
  obtain ⟨b2, hb2, hb2q, hb2i⟩ := procesar_urgente_efecto nom p4q
  have hx2 := hd2.symm.trans hb2
  simp only [Option.some.injEq, Prod.mk.injEq] at hx2
  obtain ⟨hs2, hm9⟩ := hx2
  subst hm9
  obtain ⟨p5q, p5i⟩ := correr_hist_preserva nom u5 m9 m10 hu5 hr5
  rw [hb2q] at p5q
  obtain ⟨b3, hb3, hb3q, hb3i⟩ := procesar_urgente_efecto nom p5q
  have hx3 := hd3.symm.trans hb3
  simp only [Option.some.injEq, Prod.mk.injEq] at hx3
  exact ⟨hs1, hs2, hx3.1⟩

def c8m0 : Manejador := (agregarCategoria "A" inicial).2
def c8m1 : Manejador := (agregarTareaUrgente "u1" "du" 1 0 "A" c8m0).2
def c8m3 : Manejador := (agregarTareaUrgente "u2" "du" 2 0 "A" c8m1).2
def c8m5 : Manejador := (agregarTareaUrgente "u3" "du" 3 0 "A" c8m3).2
def c8m7 : Manejador := (procesarTareaUrgente "A" c8m5).2
def c8m9 : Manejador := (procesarTareaUrgente "A" c8m7).2
def c8m11 : Manejador := (procesarTareaUrgente "A" c8m9).2

/-- Witness for C8 at a concrete run (with an undo interleaved after the
first enqueue). -/
theorem cola_urgente_fifo_testigo :
    (Salida.okTarea (Tarea.mk 1 "u1" "du" 1 0) =
        Salida.okTarea ⟨c8m0.idTarea, "u1", "du", 1, 0⟩ ∧
     Salida.okTarea (Tarea.mk 2 "u2" "du" 2 0) =
        Salida.okTarea ⟨c8m0.idTarea + 1, "u2", "du", 2, 0⟩ ∧
     Salida.okTarea (Tarea.mk 3 "u3" "du" 3 0) =
        Salida.okTarea ⟨c8m0.idTarea + 2, "u3", "du", 3, 0⟩) ∧
    (∀ (w : Manejador) (nm : String), colaPorNombre nm w.categorias = some [] →
      paso (Op.procesarTareaUrgente nm) w = some (Salida.sinTareasUrgentes, w)) :=
  cola_urgente_fifo c8m0 c8m1 c8m1 c8m3 c8m3 c8m5 c8m5 c8m7 c8m7 c8m9 c8m9 c8m11 "A"
    "u1" "du" 1 0 "u2" "du" 2 0 "u3" "du" 3 0
    [Op.deshacer] [] [] [] []
    (Salida.okTarea (Tarea.mk 1 "u1" "du" 1 0))
    (Salida.okTarea (Tarea.mk 2 "u2" "du" 2 0))
    (Salida.okTarea (Tarea.mk 3 "u3" "du" 3 0))
    (by decide) (by decide) (by decide) (by decide) (by decide) (by decide)
    (by decide) (by decide) (by decide) (by decide) (by decide) (by decide)
    (by decide) (by decide) (by decide) (by decide) (by decide)

/-- The task id a history record references. -/
def tidDeAccion : Accion → Nat
  | .agregar tid _ => tid
  | .eliminar tid _ => tid
  | .modificar _ tid _ => tid

/-- Every task id a state can reach: ids stored in some category's task
list plus ids referenced by records on either history stack. -/
def tidsDeEstado (m : Manejador) : List Nat :=
  tidsDeCategorias m.categorias ++
    (m.historial_acciones ++ m.historial_deshacer).map tidDeAccion

/-- The inductive invariant of reachable states: category ids are pairwise
distinct and below the category counter; every reachable task id is below
the task counter and owned by a live heap object; the ghost allocation
list is strictly increasing and below the task counter. -/
def Invariante (m : Manejador) : Prop :=
  (idsDeCategorias m.categorias).Nodup ∧
  (∀ cid ∈ idsDeCategorias m.categorias, cid < m.idCategoria) ∧
  (∀ tid ∈ tidsDeEstado m, tid < m.idTarea) ∧
  (∀ tid ∈ tidsDeEstado m, tid ∈ m.tareasVivas.map Tarea.id) ∧
  m.idsAsignados.Pairwise (· < ·) ∧
  (∀ x ∈ m.idsAsignados, x < m.idTarea)

theorem inv_inicial : Invariante inicial := by
  refine ⟨?_, ?_, ?_, ?_, ?_, ?_⟩ <;> simp [inicial, idsDeCategorias,
    tidsDeEstado, tidsDeCategorias, preordenLista]

/-- A replacement that keeps the node's id and subcategories keeps the
pre-order list of category ids. -/
theorem ids_tras_reemplazo (i : Option Nat) (n : Option String)
    {cats : List Categoria} {c c' : Categoria}
    (hf : encontrarEnLista i n cats = some c)
    (hsubs : c'.subcategorias = c.subcategorias) (hid : c'.id = c.id) :
    idsDeCategorias ((reemplazarLista i n c' cats).1) = idsDeCategorias cats := by
  obtain ⟨pre, pre', suf, h1, h2, h3, h4⟩ := reemplazarLista_descomp i n c' cats c hf
  rw [idsDeCategorias, idsDeCategorias, h1, h2]
  simp only [List.map_append]
  rw [map_congr_de_map (fun x y hxy => id_de_perfil hxy) h3]
  rw [preordenCat_def c, preordenCat_def c', hsubs]
  simp [hid]

/-- A replacement that keeps the node's subcategories changes the task id
pool only at that node's own task list. -/
theorem tids_tras_reemplazo (i : Option Nat) (n : Option String)
    {cats : List Categoria} {c c' : Categoria}
    (hf : encontrarEnLista i n cats = some c)
    (hsubs : c'.subcategorias = c.subcategorias) :
    ∃ A B, tidsDeCategorias cats = A ++ (c.tareas ++ B) ∧
      tidsDeCategorias ((reemplazarLista i n c' cats).1) = A ++ (c'.tareas ++ B) := by
  obtain ⟨pre, pre', suf, h1, h2, h3, h4⟩ := reemplazarLista_descomp i n c' cats c hf
  refine ⟨(pre.map Categoria.tareas).flatten,
    ((preordenLista c.subcategorias).map Categoria.tareas).flatten ++
      (suf.map Categoria.tareas).flatten, ?_, ?_⟩
  · rw [tidsDeCategorias, h1, preordenCat_def c]
    simp [List.flatten_append]
  · rw [tidsDeCategorias, h2, preordenCat_def c', hsubs]
    have hpp : pre'.map Categoria.tareas = pre.map Categoria.tareas :=
      map_congr_de_map (fun x y hxy => tareas_de_perfil hxy) h3
    simp [hpp, List.flatten_append]

/-- The task list of a found category is part of the forest's task id
pool. -/
theorem tareas_en_tids (i : Option Nat) (n : Option String)
    {cats : List Categoria} {c : Categoria}
    (hf : encontrarEnLista i n cats = some c) :
    ∀ x ∈ c.tareas, x ∈ tidsDeCategorias cats := by
  intro x hx
  have hmem : c ∈ preordenLista cats := by
    have hmf := encontrarLista_eq_find i n cats
    rw [hf] at hmf
    exact List.mem_of_find?_eq_some hmf.symm
  rw [tidsDeCategorias]
  exact List.mem_flatten.mpr ⟨c.tareas, List.mem_map_of_mem Categoria.tareas hmem, hx⟩

/-- Appending a fresh root category appends its id and no task ids. -/
theorem ids_tras_raiz (cats : List Categoria) (k : Nat) (nom : String) :
    idsDeCategorias (cats ++ [.mk k nom [] [] []]) = idsDeCategorias cats ++ [k] ∧
    tidsDeCategorias (cats ++ [.mk k nom [] [] []]) = tidsDeCategorias cats := by
  constructor
  · rw [idsDeCategorias, idsDeCategorias, preordenLista_append]
    simp [preordenLista_cons, preordenCat_def]
  · rw [tidsDeCategorias, tidsDeCategorias, preordenLista_append]
    simp [preordenLista_cons, preordenCat_def]

/-- Adding a fresh empty subcategory permutes the id pool to the old pool
plus the new id, and keeps the task id pool. -/
theorem ids_tras_subcategoria (i : Option Nat) (n : Option String)
    {cats : List Categoria} {c : Categoria} (k : Nat) (nomS : String)
    (hf : encontrarEnLista i n cats = some c) :
    (idsDeCategorias ((reemplazarLista i n
        (c.conSubcategorias (c.subcategorias ++ [.mk k nomS [] [] []])) cats).1)).Perm
      (idsDeCategorias cats ++ [k]) ∧
    tidsDeCategorias ((reemplazarLista i n
        (c.conSubcategorias (c.subcategorias ++ [.mk k nomS [] [] []])) cats).1) =
      tidsDeCategorias cats := by
  obtain ⟨pre, pre', suf, h1, h2, h3, h4⟩ := reemplazarLista_descomp i n
    (c.conSubcategorias (c.subcategorias ++ [.mk k nomS [] [] []])) cats c hf
  have hpre_ids : pre'.map Categoria.id = pre.map Categoria.id :=
    map_congr_de_map (fun x y hxy => id_de_perfil hxy) h3
  have hpre_tareas : pre'.map Categoria.tareas = pre.map Categoria.tareas :=
    map_congr_de_map (fun x y hxy => tareas_de_perfil hxy) h3
  constructor
  · rw [idsDeCategorias, idsDeCategorias, h1, h2]
    simp only [List.map_append, hpre_ids]
    rw [preordenCat_def c,
      preordenCat_def (c.conSubcategorias (c.subcategorias ++ [Categoria.mk k nomS [] [] []]))]
    simp only [Categoria.subcategorias_conSubcategorias, preordenLista_append,
      Categoria.id_conSubcategorias, List.map_cons, List.map_append]
    simp only [preordenLista, preordenCat, List.map_cons, List.map_nil]
    simp only [List.append_assoc, List.cons_append, List.nil_append]
    refine (pre.map Categoria.id).perm_append_left_iff.mpr ?_
    refine List.Perm.cons c.id ?_
    refine ((preordenLista c.subcategorias).map Categoria.id).perm_append_left_iff.mpr ?_
    simpa using @List.perm_append_comm Nat [k] (suf.map Categoria.id)
  · rw [tidsDeCategorias, tidsDeCategorias, h1, h2]
    simp only [List.map_append, hpre_tareas]
    rw [preordenCat_def c,
      preordenCat_def (c.conSubcategorias (c.subcategorias ++ [Categoria.mk k nomS [] [] []]))]
    simp only [Categoria.subcategorias_conSubcategorias, preordenLista_append,
      Categoria.tareas_conSubcategorias, List.map_cons, List.map_append]
    simp [preordenLista, preordenCat, List.flatten_append]

/-- Every operation leaves the task counter unchanged or increments it,
and only ever appends to the ghost allocation list. -/
theorem paso_contadores (op : Op) (s : Salida) (m m' : Manejador)
    (h : paso op m = some (s, m')) :
    m.idTarea ≤ m'.idTarea ∧ ∃ l, m'.idsAsignados = m.idsAsignados ++ l := by
  cases op with
  | agregarCategoria n =>
    cases hf : encontrarCategoria none (some n) m.categorias with
    | some c =>
      simp only [paso, agregarCategoria, hf, Option.some.injEq, Prod.mk.injEq] at h
      rw [← h.2]
      exact ⟨le_refl _, [], by simp⟩
    | none =>
      simp only [paso, agregarCategoria, hf, Option.some.injEq, Prod.mk.injEq] at h
      rw [← h.2]
      exact ⟨le_refl _, [], by simp⟩
  | agregarSubcategoria n nc =>
    cases hf : encontrarCategoria none (some nc) m.categorias with
    | some c =>
      simp only [paso, agregarSubcategoria, hf, Option.some.injEq, Prod.mk.injEq] at h
      rw [← h.2]
      exact ⟨le_refl _, [], by simp⟩
    | none =>
      simp only [paso, agregarSubcategoria, hf, Option.some.injEq, Prod.mk.injEq] at h
      rw [← h.2]
      exact ⟨le_refl _, [], by simp⟩
  | agregarTarea t d p f nc =>
    cases hf : encontrarCategoria none (some nc) m.categorias with
    | some c =>
      simp only [paso, agregarTarea, hf, Option.some.injEq, Prod.mk.injEq] at h
      rw [← h.2]
      exact ⟨Nat.le_succ _, [m.idTarea], rfl⟩
    | none =>
      simp only [paso, agregarTarea, hf, Option.some.injEq, Prod.mk.injEq] at h
      rw [← h.2]
      exact ⟨le_refl _, [], by simp⟩
  | eliminarTarea tid nc =>
    cases hf : encontrarCategoria none (some nc) m.categorias with
    | some c =>
      simp only [paso, eliminarTarea, hf] at h
      by_cases hmem : tid ∈ c.tareas
      · rw [if_pos hmem] at h
        simp only [Option.some.injEq, Prod.mk.injEq] at h
        rw [← h.2]
        exact ⟨le_refl _, [], by simp⟩
      · rw [if_neg hmem] at h
        simp only [Option.some.injEq, Prod.mk.injEq] at h
        rw [← h.2]
        exact ⟨le_refl _, [], by simp⟩
    | none =>
      simp only [paso, eliminarTarea, hf, Option.some.injEq, Prod.mk.injEq] at h
      rw [← h.2]
      exact ⟨le_refl _, [], by simp⟩
  | modificarTarea tid t d p f nc =>
    cases hf : encontrarCategoria none (some nc) m.categorias with
    | some c =>
      simp only [paso, modificarTarea, hf] at h
      by_cases hmem : tid ∈ c.tareas
      · rw [if_pos hmem] at h
        cases hb : buscarTarea tid m.tareasVivas with
        | none => rw [hb] at h; cases h
        | some anterior =>
          rw [hb] at h
          simp only [Option.some.injEq, Prod.mk.injEq] at h
          rw [← h.2]
          exact ⟨le_refl _, [], by simp⟩
      · rw [if_neg hmem] at h
        simp only [Option.some.injEq, Prod.mk.injEq] at h
        rw [← h.2]
        exact ⟨le_refl _, [], by simp⟩
    | none =>
      simp only [paso, modificarTarea, hf, Option.some.injEq, Prod.mk.injEq] at h
      rw [← h.2]
      exact ⟨le_refl _, [], by simp⟩
  | deshacer =>
    cases ha : m.historial_acciones with
    | nil =>
      simp only [paso, deshacer, ha, Option.some.injEq, Prod.mk.injEq] at h
      rw [← h.2]
      exact ⟨le_refl _, [], by simp⟩
    | cons a resto =>
      cases a with
      | agregar tid cid =>
        cases hf : encontrarCategoria (some cid) none m.categorias with
        | none => simp [paso, deshacer, ha, hf] at h
        | some c =>
          simp only [paso, deshacer, ha, hf] at h
          by_cases hmem : tid ∈ c.tareas
          · rw [if_pos hmem] at h
            simp only [Option.some.injEq, Prod.mk.injEq] at h
            rw [← h.2]
            exact ⟨le_refl _, [], by simp⟩
          · rw [if_neg hmem] at h; cases h
      | eliminar tid cid =>
        cases hf : encontrarCategoria (some cid) none m.categorias with
        | none => simp [paso, deshacer, ha, hf] at h
        | some c =>
          simp only [paso, deshacer, ha, hf, Option.some.injEq, Prod.mk.injEq] at h
          rw [← h.2]
          exact ⟨le_refl _, [], by simp⟩
      | modificar anterior tid cid =>
        simp only [paso, deshacer, ha, Option.some.injEq, Prod.mk.injEq] at h
        rw [← h.2]
        exact ⟨le_refl _, [], by simp⟩
  | rehacer =>
    cases ha : m.historial_deshacer with
    | nil =>
      simp only [paso, rehacer, ha, Option.some.injEq, Prod.mk.injEq] at h
      rw [← h.2]
      exact ⟨le_refl _, [], by simp⟩
    | cons a resto =>
      cases a with
      | agregar tid cid =>
        cases hf : encontrarCategoria (some cid) none m.categorias with
        | none => simp [paso, rehacer, ha, hf] at h
        | some c =>
          simp only [paso, rehacer, ha, hf, Option.some.injEq, Prod.mk.injEq] at h
          rw [← h.2]
          exact ⟨le_refl _, [], by simp⟩
      | eliminar tid cid =>
        cases hf : encontrarCategoria (some cid) none m.categorias with
        | none => simp [paso, rehacer, ha, hf] at h
        | some c =>
          simp only [paso, rehacer, ha, hf] at h
          by_cases hmem : tid ∈ c.tareas
          · rw [if_pos hmem] at h
            simp only [Option.some.injEq, Prod.mk.injEq] at h
            rw [← h.2]
            exact ⟨le_refl _, [], by simp⟩
          · rw [if_neg hmem] at h; cases h
      | modificar anterior tid cid =>
        simp only [paso, rehacer, ha, Option.some.injEq, Prod.mk.injEq] at h
        rw [← h.2]
        exact ⟨le_refl _, [], by simp⟩
  | agregarTareaUrgente t d p f nc =>
    cases hf : encontrarCategoria none (some nc) m.categorias with
    | some c =>
      simp only [paso, agregarTareaUrgente, hf, Option.some.injEq, Prod.mk.injEq] at h
      rw [← h.2]
      exact ⟨Nat.le_succ _, [m.idTarea], rfl⟩
    | none =>
      simp only [paso, agregarTareaUrgente, hf, Option.some.injEq, Prod.mk.injEq] at h
      rw [← h.2]
      exact ⟨le_refl _, [], by simp⟩
  | procesarTareaUrgente nc =>
    cases hf : encontrarCategoria none (some nc) m.categorias with
    | none =>
      simp only [paso, procesarTareaUrgente, hf, Option.some.injEq, Prod.mk.injEq] at h
      rw [← h.2]
      exact ⟨le_refl _, [], by simp⟩
    | some c =>
      cases hq : c.tareasUrgentes with
      | nil =>
        simp only [paso, procesarTareaUrgente, hf, hq, Option.some.injEq,
          Prod.mk.injEq] at h
        rw [← h.2]
        exact ⟨le_refl _, [], by simp⟩
      | cons t0 cola =>
        simp only [paso, procesarTareaUrgente, hf, hq, Option.some.injEq,
          Prod.mk.injEq] at h
        rw [← h.2]
        exact ⟨le_refl _, [], by simp⟩

theorem actualizarTarea_ids (tid : Nat) (f : Tarea → Tarea)
    (hfid : ∀ t, (f t).id = t.id) :
    ∀ ts : List Tarea, (actualizarTarea tid f ts).map Tarea.id = ts.map Tarea.id
  | [] => rfl
  | t :: ts => by
    rw [actualizarTarea]
    by_cases hb : t.id == tid
    · rw [if_pos hb]
      simp [hfid]
    · rw [if_neg hb]
      simp [actualizarTarea_ids tid f hfid ts]

theorem inv_agregarCategoria (n : String) (s : Salida) (m m' : Manejador)
    (h : paso (Op.agregarCategoria n) m = some (s, m'))
    (hI : Invariante m) : Invariante m' := by
  cases hf : encontrarCategoria none (some n) m.categorias with
  | some c =>
    simp only [paso, agregarCategoria, hf, Option.some.injEq, Prod.mk.injEq] at h
    rw [← h.2]
    exact hI
  | none =>
    simp only [paso, agregarCategoria, hf, Option.some.injEq, Prod.mk.injEq] at h
    obtain ⟨-, hm⟩ := h
    have e1 : m'.categorias = m.categorias ++ [.mk m.idCategoria n [] [] []] := by
      rw [← hm]
    have e2 : m'.idCategoria = m.idCategoria + 1 := by rw [← hm]
    have e3 : m'.idTarea = m.idTarea := by rw [← hm]
    have e4 : m'.historial_acciones = m.historial_acciones := by rw [← hm]
    have e5 : m'.historial_deshacer = m.historial_deshacer := by rw [← hm]
    have e6 : m'.tareasVivas = m.tareasVivas := by rw [← hm]
    have e7 : m'.idsAsignados = m.idsAsignados := by rw [← hm]
    obtain ⟨hN, hCB, hTB, hTH, hGP, hGB⟩ := hI
    obtain ⟨hr1, hr2⟩ := ids_tras_raiz m.categorias m.idCategoria n
    have htE : tidsDeEstado m' = tidsDeEstado m := by
      rw [tidsDeEstado, tidsDeEstado, e1, e4, e5, hr2]
    refine ⟨?_, ?_, ?_, ?_, ?_, ?_⟩
    · rw [e1, hr1, List.nodup_append]
      refine ⟨hN, by simp, ?_⟩
      intro a ha
      have := hCB a ha
      simp only [List.mem_singleton]
      omega
    · intro cid hcid
      rw [e1, hr1] at hcid
      rw [e2]
      rcases List.mem_append.mp hcid with hcid | hcid
      · have := hCB cid hcid; omega
      · simp only [List.mem_singleton] at hcid; omega
    · intro x hx
      rw [htE] at hx
      rw [e3]
      exact hTB x hx
    · intro x hx
      rw [htE] at hx
      rw [e6]
      exact hTH x hx
    · rw [e7]; exact hGP
    · intro x hx
      rw [e7] at hx
      rw [e3]
      exact hGB x hx

theorem inv_agregarSubcategoria (n nc : String) (s : Salida) (m m' : Manejador)
    (h : paso (Op.agregarSubcategoria n nc) m = some (s, m'))
    (hI : Invariante m) : Invariante m' := by
  cases hf : encontrarCategoria none (some nc) m.categorias with
  | none =>
    simp only [paso, agregarSubcategoria, hf, Option.some.injEq, Prod.mk.injEq] at h
    rw [← h.2]
    exact hI
  | some c =>
    simp only [paso, agregarSubcategoria, hf, Option.some.injEq, Prod.mk.injEq] at h
    obtain ⟨-, hm⟩ := h
    have e1 : m'.categorias = (reemplazarLista none (some nc)
        (c.conSubcategorias (c.subcategorias ++ [.mk m.idCategoria n [] [] []]))
        m.categorias).1 := by rw [← hm]
    have e2 : m'.idCategoria = m.idCategoria + 1 := by rw [← hm]
    have e3 : m'.idTarea = m.idTarea := by rw [← hm]
    have e4 : m'.historial_acciones = m.historial_acciones := by rw [← hm]
    have e5 : m'.historial_deshacer = m.historial_deshacer := by rw [← hm]
    have e6 : m'.tareasVivas = m.tareasVivas := by rw [← hm]
    have e7 : m'.idsAsignados = m.idsAsignados := by rw [← hm]
    obtain ⟨hN, hCB, hTB, hTH, hGP, hGB⟩ := hI
    obtain ⟨hperm, htids⟩ := ids_tras_subcategoria none (some nc) m.idCategoria n hf
    have htE : tidsDeEstado m' = tidsDeEstado m := by
      rw [tidsDeEstado, tidsDeEstado, e1, e4, e5, htids]
    refine ⟨?_, ?_, ?_, ?_, ?_, ?_⟩
    · rw [e1]
      refine hperm.nodup_iff.mpr ?_
      rw [List.nodup_append]
      refine ⟨hN, by simp, ?_⟩
      intro a ha
      have := hCB a ha
      simp only [List.mem_singleton]
      omega
    · intro cid hcid
      rw [e1] at hcid
      rw [e2]
      have hcid2 := hperm.mem_iff.mp hcid
      rcases List.mem_append.mp hcid2 with hcid2 | hcid2
      · have := hCB cid hcid2; omega
      · simp only [List.mem_singleton] at hcid2; omega
    · intro x hx
      rw [htE] at hx
      rw [e3]
      exact hTB x hx
    · intro x hx
      rw [htE] at hx
      rw [e6]
      exact hTH x hx
    · rw [e7]; exact hGP
    · intro x hx
      rw [e7] at hx
      rw [e3]
      exact hGB x hx

theorem inv_agregarTareaUrgente (t d : String) (p f : Nat) (nc : String)
    (s : Salida) (m m' : Manejador)
    (h : paso (Op.agregarTareaUrgente t d p f nc) m = some (s, m'))
    (hI : Invariante m) : Invariante m' := by
  cases hf : encontrarCategoria none (some nc) m.categorias with
  | none =>
    simp only [paso, agregarTareaUrgente, hf, Option.some.injEq, Prod.mk.injEq] at h
    rw [← h.2]
    exact hI
  | some c =>
    simp only [paso, agregarTareaUrgente, hf, Option.some.injEq, Prod.mk.injEq] at h
    obtain ⟨-, hm⟩ := h
    have e1 : m'.categorias = (reemplazarLista none (some nc)
        (c.conCola (c.tareasUrgentes ++ [⟨m.idTarea, t, d, p, f⟩]))
        m.categorias).1 := by rw [← hm]
    have e2 : m'.idCategoria = m.idCategoria := by rw [← hm]
    have e3 : m'.idTarea = m.idTarea + 1 := by rw [← hm]
    have e4 : m'.historial_acciones = m.historial_acciones := by rw [← hm]
    have e5 : m'.historial_deshacer = m.historial_deshacer := by rw [← hm]
    have e6 : m'.tareasVivas = m.tareasVivas := by rw [← hm]
    have e7 : m'.idsAsignados = m.idsAsignados ++ [m.idTarea] := by rw [← hm]
    obtain ⟨hN, hCB, hTB, hTH, hGP, hGB⟩ := hI
    have hids := ids_tras_reemplazo none (some nc) hf
      (Categoria.subcategorias_conCola c (c.tareasUrgentes ++ [⟨m.idTarea, t, d, p, f⟩]))
      (Categoria.id_conCola c (c.tareasUrgentes ++ [⟨m.idTarea, t, d, p, f⟩]))
    obtain ⟨A, B, hT1, hT2⟩ := tids_tras_reemplazo none (some nc) hf
      (Categoria.subcategorias_conCola c (c.tareasUrgentes ++ [⟨m.idTarea, t, d, p, f⟩]))
    have htids : tidsDeCategorias ((reemplazarLista none (some nc)
        (c.conCola (c.tareasUrgentes ++ [⟨m.idTarea, t, d, p, f⟩])) m.categorias).1) =
        tidsDeCategorias m.categorias := by
      rw [hT2, hT1]
      simp
    have htE : tidsDeEstado m' = tidsDeEstado m := by
      rw [tidsDeEstado, tidsDeEstado, e1, e4, e5, htids]
    refine ⟨?_, ?_, ?_, ?_, ?_, ?_⟩
    · rw [e1, hids]; exact hN
    · intro cid hcid
      rw [e1, hids] at hcid
      rw [e2]
      exact hCB cid hcid
    · intro x hx
      rw [htE] at hx
      rw [e3]
      have := hTB x hx
      omega
    · intro x hx
      rw [htE] at hx
      rw [e6]
      exact hTH x hx
    · rw [e7, List.pairwise_append]
      refine ⟨hGP, by simp, ?_⟩
      intro a ha b hb
      simp only [List.mem_singleton] at hb
      subst hb
      exact hGB a ha
    · intro x hx
      rw [e7] at hx
      rw [e3]
      rcases List.mem_append.mp hx with hx | hx
      · have := hGB x hx; omega
      · simp only [List.mem_singleton] at hx; omega

theorem inv_procesarTareaUrgente (nc : String) (s : Salida) (m m' : Manejador)
    (h : paso (Op.procesarTareaUrgente nc) m = some (s, m'))
    (hI : Invariante m) : Invariante m' := by
  cases hf : encontrarCategoria none (some nc) m.categorias with
  | none =>
    simp only [paso, procesarTareaUrgente, hf, Option.some.injEq, Prod.mk.injEq] at h
    rw [← h.2]
    exact hI
  | some c =>
    cases hq : c.tareasUrgentes with
    | nil =>
      simp only [paso, procesarTareaUrgente, hf, hq, Option.some.injEq,
        Prod.mk.injEq] at h
      rw [← h.2]
      exact hI
    | cons t0 cola =>
      simp only [paso, procesarTareaUrgente, hf, hq, Option.some.injEq,
        Prod.mk.injEq] at h
      obtain ⟨-, hm⟩ := h
      have e1 : m'.categorias = (reemplazarLista none (some nc)
          (c.conCola cola) m.categorias).1 := by rw [← hm]
      have e2 : m'.idCategoria = m.idCategoria := by rw [← hm]
      have e3 : m'.idTarea = m.idTarea := by rw [← hm]
      have e4 : m'.historial_acciones = m.historial_acciones := by rw [← hm]
      have e5 : m'.historial_deshacer = m.historial_deshacer := by rw [← hm]
      have e6 : m'.tareasVivas = m.tareasVivas := by rw [← hm]
      have e7 : m'.idsAsignados = m.idsAsignados := by rw [← hm]
      obtain ⟨hN, hCB, hTB, hTH, hGP, hGB⟩ := hI
      have hids := ids_tras_reemplazo none (some nc) hf
        (Categoria.subcategorias_conCola c cola) (Categoria.id_conCola c cola)
      obtain ⟨A, B, hT1, hT2⟩ := tids_tras_reemplazo none (some nc) hf
        (Categoria.subcategorias_conCola c cola)
      have htids : tidsDeCategorias ((reemplazarLista none (some nc)
          (c.conCola cola) m.categorias).1) = tidsDeCategorias m.categorias := by
        rw [hT2, hT1]
        simp
      have htE : tidsDeEstado m' = tidsDeEstado m := by
        rw [tidsDeEstado, tidsDeEstado, e1, e4, e5, htids]
      refine ⟨?_, ?_, ?_, ?_, ?_, ?_⟩
      · rw [e1, hids]; exact hN
      · intro cid hcid
        rw [e1, hids] at hcid
        rw [e2]
        exact hCB cid hcid
      · intro x hx
        rw [htE] at hx
        rw [e3]
        exact hTB x hx
      · intro x hx
        rw [htE] at hx
        rw [e6]
        exact hTH x hx
      · rw [e7]; exact hGP
      · intro x hx
        rw [e7] at hx
        rw [e3]
        exact hGB x hx

theorem inv_agregarTarea (t d : String) (p f : Nat) (nc : String)
    (s : Salida) (m m' : Manejador)
    (h : paso (Op.agregarTarea t d p f nc) m = some (s, m'))
    (hI : Invariante m) : Invariante m' := by
  cases hf : encontrarCategoria none (some nc) m.categorias with
  | none =>
    simp only [paso, agregarTarea, hf, Option.some.injEq, Prod.mk.injEq] at h
    rw [← h.2]
    exact hI
  | some c =>
    simp only [paso, agregarTarea, hf, Option.some.injEq, Prod.mk.injEq] at h
    obtain ⟨-, hm⟩ := h
    have e1 : m'.categorias = (reemplazarLista none (some nc)
        (c.conTareas (c.tareas ++ [m.idTarea])) m.categorias).1 := by rw [← hm]
    have e2 : m'.idCategoria = m.idCategoria := by rw [← hm]
    have e3 : m'.idTarea = m.idTarea + 1 := by rw [← hm]
    have e4 : m'.historial_acciones =
        Accion.agregar m.idTarea c.id :: m.historial_acciones := by rw [← hm]
    have e5 : m'.historial_deshacer = m.historial_deshacer := by rw [← hm]
    have e6 : m'.tareasVivas = m.tareasVivas ++ [⟨m.idTarea, t, d, p, f⟩] := by
      rw [← hm]
    have e7 : m'.idsAsignados = m.idsAsignados ++ [m.idTarea] := by rw [← hm]
    obtain ⟨hN, hCB, hTB, hTH, hGP, hGB⟩ := hI
    have hids := ids_tras_reemplazo none (some nc) hf
      (Categoria.subcategorias_conTareas c (c.tareas ++ [m.idTarea]))
      (Categoria.id_conTareas c (c.tareas ++ [m.idTarea]))
    obtain ⟨A, B, hT1, hT2⟩ := tids_tras_reemplazo none (some nc) hf
      (Categoria.subcategorias_conTareas c (c.tareas ++ [m.idTarea]))
    rw [Categoria.tareas_conTareas] at hT2
    have hset : ∀ x ∈ tidsDeEstado m', x = m.idTarea ∨ x ∈ tidsDeEstado m := by
      intro x hx
      rw [tidsDeEstado, e1, e4, e5] at hx
      rcases List.mem_append.mp hx with hx | hx
      · rw [hT2] at hx
        simp only [List.mem_append, List.mem_singleton] at hx
        rcases hx with hx | (hx | hx) | hx
        · refine Or.inr (List.mem_append.mpr (Or.inl ?_))
          rw [hT1]; simp [hx]
        · refine Or.inr (List.mem_append.mpr (Or.inl ?_))
          rw [hT1]; simp [hx]
        · exact Or.inl hx
        · refine Or.inr (List.mem_append.mpr (Or.inl ?_))
          rw [hT1]; simp [hx]
      · simp only [List.cons_append, List.map_cons, List.mem_cons, tidDeAccion] at hx
        rcases hx with hx | hx
        · exact Or.inl hx
        · exact Or.inr (List.mem_append.mpr (Or.inr hx))
    refine ⟨?_, ?_, ?_, ?_, ?_, ?_⟩
    · rw [e1, hids]; exact hN
    · intro cid hcid
      rw [e1, hids] at hcid
      rw [e2]
      exact hCB cid hcid
    · intro x hx
      rw [e3]
      rcases hset x hx with rfl | hx
      · omega
      · have := hTB x hx; omega
    · intro x hx
      rw [e6]
      simp only [List.map_append, List.map_cons, List.map_nil]
      rcases hset x hx with rfl | hx
      · simp
      · exact List.mem_append.mpr (Or.inl (hTH x hx))
    · rw [e7, List.pairwise_append]
      refine ⟨hGP, by simp, ?_⟩
      intro a ha b hb
      simp only [List.mem_singleton] at hb
      subst hb
      exact hGB a ha
    · intro x hx
      rw [e7] at hx
      rw [e3]
      rcases List.mem_append.mp hx with hx | hx
      · have := hGB x hx; omega
      · simp only [List.mem_singleton] at hx; omega

theorem inv_eliminarTarea (tid : Nat) (nc : String)
    (s : Salida) (m m' : Manejador)
    (h : paso (Op.eliminarTarea tid nc) m = some (s, m'))
    (hI : Invariante m) : Invariante m' := by
  cases hf : encontrarCategoria none (some nc) m.categorias with
  | none =>
    simp only [paso, eliminarTarea, hf, Option.some.injEq, Prod.mk.injEq] at h
    rw [← h.2]
    exact hI
  | some c =>
    simp only [paso, eliminarTarea, hf] at h
    by_cases hmem : tid ∈ c.tareas
    · rw [if_pos hmem] at h
      simp only [Option.some.injEq, Prod.mk.injEq] at h
      obtain ⟨-, hm⟩ := h
      have e1 : m'.categorias = (reemplazarLista none (some nc)
          (c.conTareas (c.tareas.erase tid)) m.categorias).1 := by rw [← hm]
      have e2 : m'.idCategoria = m.idCategoria := by rw [← hm]
      have e3 : m'.idTarea = m.idTarea := by rw [← hm]
      have e4 : m'.historial_acciones =
          Accion.eliminar tid c.id :: m.historial_acciones := by rw [← hm]
      have e5 : m'.historial_deshacer = m.historial_deshacer := by rw [← hm]
      have e6 : m'.tareasVivas = m.tareasVivas := by rw [← hm]
      have e7 : m'.idsAsignados = m.idsAsignados := by rw [← hm]
      obtain ⟨hN, hCB, hTB, hTH, hGP, hGB⟩ := hI
      have hids := ids_tras_reemplazo none (some nc) hf
        (Categoria.subcategorias_conTareas c (c.tareas.erase tid))
        (Categoria.id_conTareas c (c.tareas.erase tid))
      obtain ⟨A, B, hT1, hT2⟩ := tids_tras_reemplazo none (some nc) hf
        (Categoria.subcategorias_conTareas c (c.tareas.erase tid))
      rw [Categoria.tareas_conTareas] at hT2
      have hset : ∀ x ∈ tidsDeEstado m', x ∈ tidsDeEstado m := by
        intro x hx
        rw [tidsDeEstado, e1, e4, e5] at hx
        rcases List.mem_append.mp hx with hx | hx
        · rw [hT2] at hx
          refine List.mem_append.mpr (Or.inl ?_)
          rw [hT1]
          simp only [List.mem_append] at hx ⊢
          rcases hx with hx | hx | hx
          · exact Or.inl hx
          · exact Or.inr (Or.inl (List.erase_subset tid c.tareas hx))
          · exact Or.inr (Or.inr hx)
        · simp only [List.cons_append, List.map_cons, List.mem_cons, tidDeAccion] at hx
          rcases hx with hx | hx
          · exact hx ▸ List.mem_append.mpr
              (Or.inl (tareas_en_tids none (some nc) hf tid hmem))
          · exact List.mem_append.mpr (Or.inr hx)
      refine ⟨?_, ?_, ?_, ?_, ?_, ?_⟩
      · rw [e1, hids]; exact hN
      · intro cid hcid
        rw [e1, hids] at hcid
        rw [e2]
        exact hCB cid hcid
      · intro x hx
        rw [e3]
        exact hTB x (hset x hx)
      · intro x hx
        rw [e6]
        exact hTH x (hset x hx)
      · rw [e7]; exact hGP
      · intro x hx
        rw [e7] at hx
        rw [e3]
        exact hGB x hx
    · rw [if_neg hmem] at h
      simp only [Option.some.injEq, Prod.mk.injEq] at h
      rw [← h.2]
      exact hI

theorem inv_modificarTarea (tid : Nat) (t d : String) (p f : Nat) (nc : String)
    (s : Salida) (m m' : Manejador)
    (h : paso (Op.modificarTarea tid t d p f nc) m = some (s, m'))
    (hI : Invariante m) : Invariante m' := by
  cases hf : encontrarCategoria none (some nc) m.categorias with
  | none =>
    simp only [paso, modificarTarea, hf, Option.some.injEq, Prod.mk.injEq] at h
    rw [← h.2]
    exact hI
  | some c =>
    simp only [paso, modificarTarea, hf] at h
    by_cases hmem : tid ∈ c.tareas
    · rw [if_pos hmem] at h
      cases hb : buscarTarea tid m.tareasVivas with
      | none => rw [hb] at h; cases h
      | some anterior =>
        rw [hb] at h
        simp only [Option.some.injEq, Prod.mk.injEq] at h
        obtain ⟨-, hm⟩ := h
        have e1 : m'.categorias = m.categorias := by rw [← hm]
        have e2 : m'.idCategoria = m.idCategoria := by rw [← hm]
        have e3 : m'.idTarea = m.idTarea := by rw [← hm]
        have e4 : m'.historial_acciones =
            Accion.modificar anterior tid c.id :: m.historial_acciones := by rw [← hm]
        have e5 : m'.historial_deshacer = m.historial_deshacer := by rw [← hm]
        have e6 : m'.tareasVivas = actualizarTarea tid
            (fun u => { u with titulo := t, descripcion := d, prioridad := p, fecha_vencimiento := f })
            m.tareasVivas := by
          rw [← hm]
        have e7 : m'.idsAsignados = m.idsAsignados := by rw [← hm]
        obtain ⟨hN, hCB, hTB, hTH, hGP, hGB⟩ := hI
        have hset : ∀ x ∈ tidsDeEstado m', x ∈ tidsDeEstado m := by
          intro x hx
          rw [tidsDeEstado, e1, e4, e5] at hx
          rcases List.mem_append.mp hx with hx | hx
          · exact List.mem_append.mpr (Or.inl hx)
          · simp only [List.cons_append, List.map_cons, List.mem_cons, tidDeAccion] at hx
            rcases hx with hx | hx
            · exact hx ▸ List.mem_append.mpr
                (Or.inl (tareas_en_tids none (some nc) hf tid hmem))
            · exact List.mem_append.mpr (Or.inr hx)
        refine ⟨?_, ?_, ?_, ?_, ?_, ?_⟩
        · rw [e1]; exact hN
        · intro cid hcid
          rw [e1] at hcid
          rw [e2]
          exact hCB cid hcid
        · intro x hx
          rw [e3]
          exact hTB x (hset x hx)
        · intro x hx
          rw [e6, actualizarTarea_ids tid (fun u => { u with titulo := t, descripcion := d, prioridad := p, fecha_vencimiento := f }) (fun u => rfl)]
          exact hTH x (hset x hx)
        · rw [e7]; exact hGP
        · intro x hx
          rw [e7] at hx
          rw [e3]
          exact hGB x hx
    · rw [if_neg hmem] at h
      simp only [Option.some.injEq, Prod.mk.injEq] at h
      rw [← h.2]
      exact hI

theorem mem_registros_mover {x : Nat} {a : Accion} {r d : List Accion} :
    x ∈ (r ++ a :: d).map tidDeAccion ↔ x ∈ ((a :: r) ++ d).map tidDeAccion := by
  simp only [List.map_append, List.map_cons, List.mem_append, List.mem_cons,
    List.cons_append]
  tauto

theorem inv_deshacer (s : Salida) (m m' : Manejador)
    (h : paso Op.deshacer m = some (s, m'))
    (hI : Invariante m) : Invariante m' := by
  cases ha : m.historial_acciones with
  | nil =>
    simp only [paso, deshacer, ha, Option.some.injEq, Prod.mk.injEq] at h
    rw [← h.2]
    exact hI
  | cons a resto =>
    obtain ⟨hN, hCB, hTB, hTH, hGP, hGB⟩ := hI
    have hrec : ∀ x, x ∈ (resto ++ a :: m.historial_deshacer).map tidDeAccion →
        x ∈ tidsDeEstado m := by
      intro x hx
      refine List.mem_append.mpr (Or.inr ?_)
      rw [ha]
      exact mem_registros_mover.mp hx
    have hamem : tidDeAccion a ∈ tidsDeEstado m := by
      refine List.mem_append.mpr (Or.inr ?_)
      rw [ha]
      simp
    cases a with
    | agregar tid cid =>
      cases hf : encontrarCategoria (some cid) none m.categorias with
      | none => simp [paso, deshacer, ha, hf] at h
      | some c =>
        simp only [paso, deshacer, ha, hf] at h
        by_cases hmem : tid ∈ c.tareas
        · rw [if_pos hmem] at h
          simp only [Option.some.injEq, Prod.mk.injEq] at h
          obtain ⟨-, hm⟩ := h
          have e1 : m'.categorias = (reemplazarLista (some cid) none
              (c.conTareas (c.tareas.erase tid)) m.categorias).1 := by rw [← hm]
          have e2 : m'.idCategoria = m.idCategoria := by rw [← hm]
          have e3 : m'.idTarea = m.idTarea := by rw [← hm]
          have e4 : m'.historial_acciones = resto := by rw [← hm]
          have e5 : m'.historial_deshacer =
              Accion.agregar tid cid :: m.historial_deshacer := by rw [← hm]
          have e6 : m'.tareasVivas = m.tareasVivas := by rw [← hm]
          have e7 : m'.idsAsignados = m.idsAsignados := by rw [← hm]
          have hids := ids_tras_reemplazo (some cid) none hf
            (Categoria.subcategorias_conTareas c (c.tareas.erase tid))
            (Categoria.id_conTareas c (c.tareas.erase tid))
          obtain ⟨A, B, hT1, hT2⟩ := tids_tras_reemplazo (some cid) none hf
            (Categoria.subcategorias_conTareas c (c.tareas.erase tid))
          have hset : ∀ x ∈ tidsDeEstado m', x ∈ tidsDeEstado m := by
            intro x hx
            rw [tidsDeEstado, e1, e4, e5] at hx
            rcases List.mem_append.mp hx with hx | hx
            · rw [hT2] at hx
              refine List.mem_append.mpr (Or.inl ?_)
              rw [hT1]
              simp only [Categoria.tareas_conTareas, List.mem_append] at hx ⊢
              rcases hx with hx | hx | hx
              · exact Or.inl hx
              · exact Or.inr (Or.inl (List.erase_subset tid c.tareas hx))
              · exact Or.inr (Or.inr hx)
            · exact hrec x hx
          refine ⟨?_, ?_, ?_, ?_, ?_, ?_⟩
          · rw [e1, hids]; exact hN
          · intro cid2 hcid
            rw [e1, hids] at hcid
            rw [e2]
            exact hCB cid2 hcid
          · intro x hx
            rw [e3]
            exact hTB x (hset x hx)
          · intro x hx
            rw [e6]
            exact hTH x (hset x hx)
          · rw [e7]; exact hGP
          · intro x hx
            rw [e7] at hx
            rw [e3]
            exact hGB x hx
        · rw [if_neg hmem] at h; cases h
    | eliminar tid cid =>
      cases hf : encontrarCategoria (some cid) none m.categorias with
      | none => simp [paso, deshacer, ha, hf] at h
      | some c =>
        simp only [paso, deshacer, ha, hf, Option.some.injEq, Prod.mk.injEq] at h
        obtain ⟨-, hm⟩ := h
        have e1 : m'.categorias = (reemplazarLista (some cid) none
            (c.conTareas (c.tareas ++ [tid])) m.categorias).1 := by rw [← hm]
        have e2 : m'.idCategoria = m.idCategoria := by rw [← hm]
        have e3 : m'.idTarea = m.idTarea := by rw [← hm]
        have e4 : m'.historial_acciones = resto := by rw [← hm]
        have e5 : m'.historial_deshacer =
            Accion.eliminar tid cid :: m.historial_deshacer := by rw [← hm]
        have e6 : m'.tareasVivas = m.tareasVivas := by rw [← hm]
        have e7 : m'.idsAsignados = m.idsAsignados := by rw [← hm]
        have hids := ids_tras_reemplazo (some cid) none hf
          (Categoria.subcategorias_conTareas c (c.tareas ++ [tid]))
          (Categoria.id_conTareas c (c.tareas ++ [tid]))
        obtain ⟨A, B, hT1, hT2⟩ := tids_tras_reemplazo (some cid) none hf
          (Categoria.subcategorias_conTareas c (c.tareas ++ [tid]))
        have hset : ∀ x ∈ tidsDeEstado m', x ∈ tidsDeEstado m := by
          intro x hx
          rw [tidsDeEstado, e1, e4, e5] at hx
          rcases List.mem_append.mp hx with hx | hx
          · rw [hT2] at hx
            simp only [Categoria.tareas_conTareas, List.mem_append,
              List.mem_singleton] at hx
            rcases hx with hx | (hx | hx) | hx
            · refine List.mem_append.mpr (Or.inl ?_)
              rw [hT1]; simp [hx]
            · refine List.mem_append.mpr (Or.inl ?_)
              rw [hT1]; simp [hx]
            · exact hx ▸ hamem
            · refine List.mem_append.mpr (Or.inl ?_)
              rw [hT1]; simp [hx]
          · exact hrec x hx
        refine ⟨?_, ?_, ?_, ?_, ?_, ?_⟩
        · rw [e1, hids]; exact hN
        · intro cid2 hcid
          rw [e1, hids] at hcid
          rw [e2]
          exact hCB cid2 hcid
        · intro x hx
          rw [e3]
          exact hTB x (hset x hx)
        · intro x hx
          rw [e6]
          exact hTH x (hset x hx)
        · rw [e7]; exact hGP
        · intro x hx
          rw [e7] at hx
          rw [e3]
          exact hGB x hx
    | modificar anterior tid cid =>
      simp only [paso, deshacer, ha, Option.some.injEq, Prod.mk.injEq] at h
      obtain ⟨-, hm⟩ := h
      have e1 : m'.categorias = m.categorias := by rw [← hm]
      have e2 : m'.idCategoria = m.idCategoria := by rw [← hm]
      have e3 : m'.idTarea = m.idTarea := by rw [← hm]
      have e4 : m'.historial_acciones = resto := by rw [← hm]
      have e5 : m'.historial_deshacer =
          Accion.modificar anterior tid cid :: m.historial_deshacer := by rw [← hm]
      have e6 : m'.tareasVivas = actualizarTarea tid
          (fun u => { u with titulo := anterior.titulo, descripcion := anterior.descripcion, prioridad := anterior.prioridad, fecha_vencimiento := anterior.fecha_vencimiento })
          m.tareasVivas := by rw [← hm]
      have e7 : m'.idsAsignados = m.idsAsignados := by rw [← hm]
      have hset : ∀ x ∈ tidsDeEstado m', x ∈ tidsDeEstado m := by
        intro x hx
        rw [tidsDeEstado, e1, e4, e5] at hx
        rcases List.mem_append.mp hx with hx | hx
        · exact List.mem_append.mpr (Or.inl hx)
        · exact hrec x hx
      refine ⟨?_, ?_, ?_, ?_, ?_, ?_⟩
      · rw [e1]; exact hN
      · intro cid2 hcid
        rw [e1] at hcid
        rw [e2]
        exact hCB cid2 hcid
      · intro x hx
        rw [e3]
        exact hTB x (hset x hx)
      · intro x hx
        rw [e6, actualizarTarea_ids tid
          (fun u => { u with titulo := anterior.titulo, descripcion := anterior.descripcion, prioridad := anterior.prioridad, fecha_vencimiento := anterior.fecha_vencimiento })
          (fun u => rfl)]
        exact hTH x (hset x hx)
      · rw [e7]; exact hGP
      · intro x hx
        rw [e7] at hx
        rw [e3]
        exact hGB x hx

theorem inv_rehacer (s : Salida) (m m' : Manejador)
    (h : paso Op.rehacer m = some (s, m'))
    (hI : Invariante m) : Invariante m' := by
  cases ha : m.historial_deshacer with
  | nil =>
    simp only [paso, rehacer, ha, Option.some.injEq, Prod.mk.injEq] at h
    rw [← h.2]
    exact hI
  | cons a resto =>
    obtain ⟨hN, hCB, hTB, hTH, hGP, hGB⟩ := hI
    have hrec : ∀ x, x ∈ ((a :: m.historial_acciones) ++ resto).map tidDeAccion →
        x ∈ tidsDeEstado m := by
      intro x hx
      refine List.mem_append.mpr (Or.inr ?_)
      rw [ha]
      exact mem_registros_mover.mpr hx
    have hamem : tidDeAccion a ∈ tidsDeEstado m := by
      refine List.mem_append.mpr (Or.inr ?_)
      rw [ha]
      simp
    cases a with
    | agregar tid cid =>
      cases hf : encontrarCategoria (some cid) none m.categorias with
      | none => simp [paso, rehacer, ha, hf] at h
      | some c =>
        simp only [paso, rehacer, ha, hf, Option.some.injEq, Prod.mk.injEq] at h
        obtain ⟨-, hm⟩ := h
        have e1 : m'.categorias = (reemplazarLista (some cid) none
            (c.conTareas (c.tareas ++ [tid])) m.categorias).1 := by rw [← hm]
        have e2 : m'.idCategoria = m.idCategoria := by rw [← hm]
        have e3 : m'.idTarea = m.idTarea := by rw [← hm]
        have e4 : m'.historial_acciones =
            Accion.agregar tid cid :: m.historial_acciones := by rw [← hm]
        have e5 : m'.historial_deshacer = resto := by rw [← hm]
        have e6 : m'.tareasVivas = m.tareasVivas := by rw [← hm]
        have e7 : m'.idsAsignados = m.idsAsignados := by rw [← hm]
        have hids := ids_tras_reemplazo (some cid) none hf
          (Categoria.subcategorias_conTareas c (c.tareas ++ [tid]))
          (Categoria.id_conTareas c (c.tareas ++ [tid]))
        obtain ⟨A, B, hT1, hT2⟩ := tids_tras_reemplazo (some cid) none hf
          (Categoria.subcategorias_conTareas c (c.tareas ++ [tid]))
        have hset : ∀ x ∈ tidsDeEstado m', x ∈ tidsDeEstado m := by
          intro x hx
          rw [tidsDeEstado, e1, e4, e5] at hx
          rcases List.mem_append.mp hx with hx | hx
          · rw [hT2] at hx
            simp only [Categoria.tareas_conTareas, List.mem_append,
              List.mem_singleton] at hx
            rcases hx with hx | (hx | hx) | hx
            · refine List.mem_append.mpr (Or.inl ?_)
              rw [hT1]; simp [hx]
            · refine List.mem_append.mpr (Or.inl ?_)
              rw [hT1]; simp [hx]
            · exact hx ▸ hamem
            · refine List.mem_append.mpr (Or.inl ?_)
              rw [hT1]; simp [hx]
          · exact hrec x hx
        refine ⟨?_, ?_, ?_, ?_, ?_, ?_⟩
        · rw [e1, hids]; exact hN
        · intro cid2 hcid
          rw [e1, hids] at hcid
          rw [e2]
          exact hCB cid2 hcid
        · intro x hx
          rw [e3]
          exact hTB x (hset x hx)
        · intro x hx
          rw [e6]
          exact hTH x (hset x hx)
        · rw [e7]; exact hGP
        · intro x hx
          rw [e7] at hx
          rw [e3]
          exact hGB x hx
    | eliminar tid cid =>
      cases hf : encontrarCategoria (some cid) none m.categorias with
      | none => simp [paso, rehacer, ha, hf] at h
      | some c =>
        simp only [paso, rehacer, ha, hf] at h
        by_cases hmem : tid ∈ c.tareas
        · rw [if_pos hmem] at h
          simp only [Option.some.injEq, Prod.mk.injEq] at h
          obtain ⟨-, hm⟩ := h
          have e1 : m'.categorias = (reemplazarLista (some cid) none
              (c.conTareas (c.tareas.erase tid)) m.categorias).1 := by rw [← hm]
          have e2 : m'.idCategoria = m.idCategoria := by rw [← hm]
          have e3 : m'.idTarea = m.idTarea := by rw [← hm]
          have e4 : m'.historial_acciones =
              Accion.eliminar tid cid :: m.historial_acciones := by rw [← hm]
          have e5 : m'.historial_deshacer = resto := by rw [← hm]
          have e6 : m'.tareasVivas = m.tareasVivas := by rw [← hm]
          have e7 : m'.idsAsignados = m.idsAsignados := by rw [← hm]
          have hids := ids_tras_reemplazo (some cid) none hf
            (Categoria.subcategorias_conTareas c (c.tareas.erase tid))
            (Categoria.id_conTareas c (c.tareas.erase tid))
          obtain ⟨A, B, hT1, hT2⟩ := tids_tras_reemplazo (some cid) none hf
            (Categoria.subcategorias_conTareas c (c.tareas.erase tid))
          have hset : ∀ x ∈ tidsDeEstado m', x ∈ tidsDeEstado m := by
            intro x hx
            rw [tidsDeEstado, e1, e4, e5] at hx
            rcases List.mem_append.mp hx with hx | hx
            · rw [hT2] at hx
              refine List.mem_append.mpr (Or.inl ?_)
              rw [hT1]
              simp only [Categoria.tareas_conTareas, List.mem_append] at hx ⊢
              rcases hx with hx | hx | hx
              · exact Or.inl hx
              · exact Or.inr (Or.inl (List.erase_subset tid c.tareas hx))
              · exact Or.inr (Or.inr hx)
            · exact hrec x hx
          refine ⟨?_, ?_, ?_, ?_, ?_, ?_⟩
          · rw [e1, hids]; exact hN
          · intro cid2 hcid
            rw [e1, hids] at hcid
            rw [e2]
            exact hCB cid2 hcid
          · intro x hx
            rw [e3]
            exact hTB x (hset x hx)
          · intro x hx
            rw [e6]
            exact hTH x (hset x hx)
          · rw [e7]; exact hGP
          · intro x hx
            rw [e7] at hx
            rw [e3]
            exact hGB x hx
        · rw [if_neg hmem] at h; cases h
    | modificar anterior tid cid =>
      simp only [paso, rehacer, ha, Option.some.injEq, Prod.mk.injEq] at h
      obtain ⟨-, hm⟩ := h
      have e1 : m'.categorias = m.categorias := by rw [← hm]
      have e2 : m'.idCategoria = m.idCategoria := by rw [← hm]
      have e3 : m'.idTarea = m.idTarea := by rw [← hm]
      have e4 : m'.historial_acciones =
          Accion.modificar anterior tid cid :: m.historial_acciones := by rw [← hm]
      have e5 : m'.historial_deshacer = resto := by rw [← hm]
      have e6 : m'.tareasVivas = actualizarTarea tid
          (fun u => { u with titulo := anterior.titulo, descripcion := anterior.descripcion, prioridad := anterior.prioridad, fecha_vencimiento := anterior.fecha_vencimiento })
          m.tareasVivas := by rw [← hm]
      have e7 : m'.idsAsignados = m.idsAsignados := by rw [← hm]
      have hset : ∀ x ∈ tidsDeEstado m', x ∈ tidsDeEstado m := by
        intro x hx
        rw [tidsDeEstado, e1, e4, e5] at hx
        rcases List.mem_append.mp hx with hx | hx
        · exact List.mem_append.mpr (Or.inl hx)
        · exact hrec x hx
      refine ⟨?_, ?_, ?_, ?_, ?_, ?_⟩
      · rw [e1]; exact hN
      · intro cid2 hcid
        rw [e1] at hcid
        rw [e2]
        exact hCB cid2 hcid
      · intro x hx
        rw [e3]
        exact hTB x (hset x hx)
      · intro x hx
        rw [e6, actualizarTarea_ids tid
          (fun u => { u with titulo := anterior.titulo, descripcion := anterior.descripcion, prioridad := anterior.prioridad, fecha_vencimiento := anterior.fecha_vencimiento })
          (fun u => rfl)]
        exact hTH x (hset x hx)
      · rw [e7]; exact hGP
      · intro x hx
        rw [e7] at hx
        rw [e3]
        exact hGB x hx

/-- One step preserves the invariant. -/
theorem inv_paso (op : Op) (s : Salida) (m m' : Manejador)
    (h : paso op m = some (s, m')) (hI : Invariante m) : Invariante m' := by
  cases op with
  | agregarCategoria n => exact inv_agregarCategoria n s m m' h hI
  | agregarSubcategoria n nc => exact inv_agregarSubcategoria n nc s m m' h hI
  | agregarTarea t d p f nc => exact inv_agregarTarea t d p f nc s m m' h hI
  | eliminarTarea tid nc => exact inv_eliminarTarea tid nc s m m' h hI
  | modificarTarea tid t d p f nc => exact inv_modificarTarea tid t d p f nc s m m' h hI
  | deshacer => exact inv_deshacer s m m' h hI
  | rehacer => exact inv_rehacer s m m' h hI
  | agregarTareaUrgente t d p f nc => exact inv_agregarTareaUrgente t d p f nc s m m' h hI
  | procesarTareaUrgente nc => exact inv_procesarTareaUrgente nc s m m' h hI

/-- Every reachable state satisfies the invariant. -/
theorem alcanzable_inv {m : Manejador} (h : Alcanzable m) : Invariante m := by
  induction h with
  | inicial => exact inv_inicial
  | paso op s m0 m1 _ hp ih => exact inv_paso op s m0 m1 hp ih

/-- C9: the task ids handed out by the shared counter (by `agregarTarea`
and `agregarTareaUrgente`) are pairwise distinct and strictly increasing
in allocation order, in every reachable state; and no operation ever
decreases the counter or removes an allocated id from the allocation
history. -/
theorem ids_asignados_crecientes (m : Manejador) (hA : Alcanzable m) :
    m.idsAsignados.Pairwise (· < ·) ∧
    ∀ (op : Op) (s : Salida) (m' : Manejador), paso op m = some (s, m') →
      m.idTarea ≤ m'.idTarea ∧ ∃ l, m'.idsAsignados = m.idsAsignados ++ l := by
  have hI := alcanzable_inv hA
  exact ⟨hI.2.2.2.2.1, fun op s m' hp => paso_contadores op s m m' hp⟩

def c9m1 : Manejador := (agregarCategoria "A" inicial).2
def c9m2 : Manejador := (agregarTarea "t" "d" 1 0 "A" c9m1).2
def c9m3 : Manejador := (agregarTareaUrgente "u" "d" 1 0 "A" c9m2).2

/-- Witness for C9 after one normal and one urgent allocation. -/
theorem ids_asignados_crecientes_testigo :
    c9m3.idsAsignados.Pairwise (· < ·) ∧
    ∀ (op : Op) (s : Salida) (m' : Manejador), paso op c9m3 = some (s, m') →
      c9m3.idTarea ≤ m'.idTarea ∧ ∃ l, m'.idsAsignados = c9m3.idsAsignados ++ l :=
  ids_asignados_crecientes c9m3
    (Alcanzable.paso (Op.agregarTareaUrgente "u" "d" 1 0 "A") Salida.ok c9m2 c9m3
      (Alcanzable.paso (Op.agregarTarea "t" "d" 1 0 "A") Salida.ok c9m1 c9m2
        (Alcanzable.paso (Op.agregarCategoria "A") Salida.ok inicial c9m1
          Alcanzable.inicial (by decide)) (by decide)) (by decide))

/-- C2 amended: in a reachable state, every core operation other than
undo and redo returns a result (a success payload or a named error) and
never raises.  Undo and redo are excluded: on stale records they raise
(see the counterexample). -/
theorem paso_total_salvo_historial (op : Op) (m : Manejador)
    (hA : Alcanzable m) (hop : esHistOp op = false) :
    (paso op m).isSome := by
  have hI := alcanzable_inv hA
  cases op with
  | deshacer => simp [esHistOp] at hop
  | rehacer => simp [esHistOp] at hop
  | agregarCategoria n =>
    cases hf : encontrarCategoria none (some n) m.categorias with
    | some c => simp [paso, agregarCategoria, hf]
    | none => simp [paso, agregarCategoria, hf]
  | agregarSubcategoria n nc =>
    cases hf : encontrarCategoria none (some nc) m.categorias with
    | some c => simp [paso, agregarSubcategoria, hf]
    | none => simp [paso, agregarSubcategoria, hf]
  | agregarTarea t d p f nc =>
    cases hf : encontrarCategoria none (some nc) m.categorias with
    | some c => simp [paso, agregarTarea, hf]
    | none => simp [paso, agregarTarea, hf]
  | eliminarTarea tid nc =>
    cases hf : encontrarCategoria none (some nc) m.categorias with
    | none => simp [paso, eliminarTarea, hf]
    | some c =>
      by_cases hmem : tid ∈ c.tareas
      · simp [paso, eliminarTarea, hf, hmem]
      · simp [paso, eliminarTarea, hf, hmem]
  | modificarTarea tid t d p f nc =>
    cases hf : encontrarCategoria none (some nc) m.categorias with
    | none => simp [paso, modificarTarea, hf]
    | some c =>
      by_cases hmem : tid ∈ c.tareas
      · have htid : tid ∈ m.tareasVivas.map Tarea.id := by
          refine hI.2.2.2.1 tid ?_
          exact List.mem_append.mpr (Or.inl (tareas_en_tids none (some nc) hf tid hmem))
        obtain ⟨ta, hta, htaid⟩ := List.mem_map.mp htid
        have hb : (buscarTarea tid m.tareasVivas).isSome := by
          rw [buscarTarea, List.find?_isSome]
          exact ⟨ta, hta, by simp [htaid]⟩
        cases hbt : buscarTarea tid m.tareasVivas with
        | none => rw [hbt] at hb; cases hb
        | some anterior => simp [paso, modificarTarea, hf, hmem, hbt]
      · simp [paso, modificarTarea, hf, hmem]
  | agregarTareaUrgente t d p f nc =>
    cases hf : encontrarCategoria none (some nc) m.categorias with
    | some c => simp [paso, agregarTareaUrgente, hf]
    | none => simp [paso, agregarTareaUrgente, hf]
  | procesarTareaUrgente nc =>
    cases hf : encontrarCategoria none (some nc) m.categorias with
    | none => simp [paso, procesarTareaUrgente, hf]
    | some c =>
      cases hq : c.tareasUrgentes with
      | nil => simp [paso, procesarTareaUrgente, hf, hq]
      | cons t0 cola => simp [paso, procesarTareaUrgente, hf, hq]

/-- Witness for the C2 amended theorem. -/
theorem paso_total_salvo_historial_testigo :
    (paso (Op.agregarCategoria "A") inicial).isSome :=
  paso_total_salvo_historial (Op.agregarCategoria "A") inicial
    Alcanzable.inicial (by decide)

/-- C5: in any reachable state, a successful `agregarTarea` followed
immediately by `deshacer` succeeds and returns the named category's task
list to exactly its pre-add value (same members, same order). -/
theorem agregar_deshacer_restaura (m m1 : Manejador) (t d : String) (p f : Nat)
    (nom : String) (hA : Alcanzable m)
    (h1 : paso (Op.agregarTarea t d p f nom) m = some (Salida.ok, m1)) :
    ∃ m2, paso Op.deshacer m1 = some (Salida.ok, m2) ∧
      tareasPorNombre nom m2.categorias = tareasPorNombre nom m.categorias := by
  obtain ⟨hN, hCB, hTB, hTH, hGP, hGB⟩ := alcanzable_inv hA
  cases hf : encontrarCategoria none (some nom) m.categorias with
  | none => simp [paso, agregarTarea, hf] at h1
  | some c =>
    have hf' : encontrarEnLista none (some nom) m.categorias = some c := hf
    simp only [paso, agregarTarea, hf, Option.some.injEq, Prod.mk.injEq] at h1
    obtain ⟨-, hm⟩ := h1
    have e1 : m1.categorias = (reemplazarLista none (some nom)
        (c.conTareas (c.tareas ++ [m.idTarea])) m.categorias).1 := by rw [← hm]
    have e4 : m1.historial_acciones =
        Accion.agregar m.idTarea c.id :: m.historial_acciones := by rw [← hm]
    have hf2 : encontrarCategoria (some c.id) none m1.categorias =
        some (c.conTareas (c.tareas ++ [m.idTarea])) := by
      rw [encontrarCategoria, e1]
      exact encontrar_id_reemplazo none (some nom) hf' (by simp) hN
    have hnotin : m.idTarea ∉ c.tareas := by
      intro hmem
      have := hTB m.idTarea (List.mem_append.mpr (Or.inl
        (tareas_en_tids none (some nom) hf' m.idTarea hmem)))
      omega
    have hmem2 : m.idTarea ∈ (c.conTareas (c.tareas ++ [m.idTarea])).tareas := by
      simp
    refine ⟨{ m1 with
        categorias := (reemplazarLista (some c.id) none
          ((c.conTareas (c.tareas ++ [m.idTarea])).conTareas
            ((c.conTareas (c.tareas ++ [m.idTarea])).tareas.erase m.idTarea))
          m1.categorias).1,
        historial_acciones := m.historial_acciones,
        historial_deshacer := Accion.agregar m.idTarea c.id :: m1.historial_deshacer },
      ?_, ?_⟩
    · simp only [paso, deshacer, e4, hf2]
      rw [if_pos hmem2]
    · simp only [tareasPorNombre, encontrarCategoria, e1]
      rw [encontrar_tras_doble_reemplazo none (some nom) hf'
        (by simp) (by simp) (by simp) (by simp) hN, hf']
      simp only [Option.map_some', Option.some.injEq, Categoria.tareas_conTareas]
      rw [List.erase_append_right _ hnotin]
      simp

def c5m0 : Manejador := (agregarCategoria "A" inicial).2
def c5m1 : Manejador := (agregarTarea "t" "d" 1 5 "A" c5m0).2

/-- Witness for C5 at a concrete add-then-undo. -/
theorem agregar_deshacer_restaura_testigo :
    ∃ m2, paso Op.deshacer c5m1 = some (Salida.ok, m2) ∧
      tareasPorNombre "A" m2.categorias = tareasPorNombre "A" c5m0.categorias :=
  agregar_deshacer_restaura c5m0 c5m1 "t" "d" 1 5 "A"
    (Alcanzable.paso (Op.agregarCategoria "A") Salida.ok inicial c5m0
      Alcanzable.inicial (by decide)) (by decide)

/-- C6: in any reachable state, a successful `eliminarTarea` followed
immediately by `deshacer` succeeds and makes the removed task id reappear
in the named category's task list appended at the end; the rest of the
list (the original minus the removed occurrence, in order) is unchanged. -/
theorem eliminar_deshacer_reaparece (m m1 : Manejador) (tid : Nat) (nom : String)
    (c : Categoria) (hA : Alcanzable m)
    (hc : encontrarCategoria none (some nom) m.categorias = some c)
    (h1 : paso (Op.eliminarTarea tid nom) m = some (Salida.ok, m1)) :
    ∃ m2, paso Op.deshacer m1 = some (Salida.ok, m2) ∧
      tareasPorNombre nom m2.categorias = some (c.tareas.erase tid ++ [tid]) ∧
      tareasPorNombre nom m.categorias = some c.tareas := by
  obtain ⟨hN, hCB, hTB, hTH, hGP, hGB⟩ := alcanzable_inv hA
  have hc' : encontrarEnLista none (some nom) m.categorias = some c := hc
  simp only [paso, eliminarTarea, hc] at h1
  by_cases hmem : tid ∈ c.tareas
  · rw [if_pos hmem] at h1
    simp only [Option.some.injEq, Prod.mk.injEq] at h1
    obtain ⟨-, hm⟩ := h1
    have e1 : m1.categorias = (reemplazarLista none (some nom)
        (c.conTareas (c.tareas.erase tid)) m.categorias).1 := by rw [← hm]
    have e4 : m1.historial_acciones =
        Accion.eliminar tid c.id :: m.historial_acciones := by rw [← hm]
    have hf2 : encontrarCategoria (some c.id) none m1.categorias =
        some (c.conTareas (c.tareas.erase tid)) := by
      rw [encontrarCategoria, e1]
      exact encontrar_id_reemplazo none (some nom) hc' (by simp) hN
    refine ⟨{ m1 with
        categorias := (reemplazarLista (some c.id) none
          ((c.conTareas (c.tareas.erase tid)).conTareas
            ((c.conTareas (c.tareas.erase tid)).tareas ++ [tid]))
          m1.categorias).1,
        historial_acciones := m.historial_acciones,
        historial_deshacer := Accion.eliminar tid c.id :: m1.historial_deshacer },
      ?_, ?_, ?_⟩
    · simp only [paso, deshacer, e4, hf2]
    · simp only [tareasPorNombre, encontrarCategoria, e1]
      rw [encontrar_tras_doble_reemplazo none (some nom) hc'
        (by simp) (by simp) (by simp) (by simp) hN]
      simp [Categoria.tareas_conTareas]
    · simp only [tareasPorNombre, encontrarCategoria]
      rw [hc']
      simp
  · rw [if_neg hmem] at h1
    simp at h1

def c6m0 : Manejador := (agregarTarea "t" "d" 1 5 "A" (agregarCategoria "A" inicial).2).2
def c6m1 : Manejador := (eliminarTarea 1 "A" c6m0).2

/-- Witness for C6 at a concrete remove-then-undo. -/
theorem eliminar_deshacer_reaparece_testigo :
    ∃ m2, paso Op.deshacer c6m1 = some (Salida.ok, m2) ∧
      tareasPorNombre "A" m2.categorias =
        some ((Categoria.mk 1 "A" [] [] [1]).tareas.erase 1 ++ [1]) ∧
      tareasPorNombre "A" c6m0.categorias =
        some (Categoria.mk 1 "A" [] [] [1]).tareas :=
  eliminar_deshacer_reaparece c6m0 c6m1 1 "A" (Categoria.mk 1 "A" [] [] [1])
    (Alcanzable.paso (Op.agregarTarea "t" "d" 1 5 "A") Salida.ok
      (agregarCategoria "A" inicial).2 c6m0
      (Alcanzable.paso (Op.agregarCategoria "A") Salida.ok inicial
        (agregarCategoria "A" inicial).2 Alcanzable.inicial (by decide))
      (by decide))
    (by decide) (by decide)
